import Mathlib

/-!
# Verification of the tsflash core against its specification

Shallow embedding of the tsflash repository (USB topology enumeration and
unification, flash engine, lifecycle-coordinator daemon) together with
theorems settling the specification claims.

Python strings are modelled as `List Char`; Python dictionaries as
association lists in insertion order (`List (Str × α)`); Python floats
used for timestamps and percentages as `ℚ`; fallible operations return
`Option`/sum results.
-/

namespace TsFlash

/-- Python strings, modelled as lists of characters. -/
abbrev Str := List Char

/-! ## Basic string operations (Python `str` methods used by the sources) -/

/-- Everything before the first occurrence of `c` (the whole string when `c`
is absent); this is Python `s.split(c)[0]` and also `s.split(c, 1)[0]`. -/
def takeUntil (c : Char) : Str → Str
  | [] => []
  | a :: s => if a = c then [] else a :: takeUntil c s

/-- Everything from the first occurrence of `c` on (empty when `c` absent),
including `c` itself: the complement of `takeUntil`. -/
def dropUntil (c : Char) : Str → Str
  | [] => []
  | a :: s => if a = c then a :: s else dropUntil c s

/-- Digit value of a decimal digit character. -/
def digitVal (c : Char) : Nat := c.toNat - 48

/-- Decimal value of a digit string (left fold, most significant digit
first), as computed by Python `int` on a digit string. -/
def digitsVal (s : Str) : Nat := s.foldl (fun a c => 10 * a + digitVal c) 0

/-- Drop one leading `+` sign, as Python `int` does. -/
def stripPlus : Str → Str
  | '+' :: r => r
  | r => r

/-- Python `int(s)` restricted to non-negative decimal notation: an
optional `+` sign followed by one or more ASCII digits. (Python `int`
additionally strips whitespace and allows `_` separators; the port-id and
size strings handled by this program never use those forms.) -/
def parsePyNat (s : Str) : Option Nat :=
  let t := stripPlus s
  if t ≠ [] ∧ t.all Char.isDigit then some (digitsVal t) else none

/-- Decimal representation of a natural number (Python `f"{n}"`). -/
def natRepr (n : Nat) : Str :=
  if h : n < 10 then [Char.ofNat (48 + n)]
  else natRepr (n / 10) ++ [Char.ofNat (48 + n % 10)]
  decreasing_by exact Nat.div_lt_self (by omega) (by norm_num)

/-- Python `s.replace(pat, rep, 1)`: replace the first (leftmost)
occurrence of `pat` in `s` by `rep`; `s` unchanged when `pat` does not
occur. -/
def replaceFirst (s pat rep : Str) : Str :=
  match s with
  | [] => if pat = [] then rep else []
  | a :: t =>
    if pat.isPrefixOf (a :: t) then rep ++ (a :: t).drop pat.length
    else a :: replaceFirst t pat rep

/-- Lexicographic `<` on strings by character code (Python string `<`). -/
def strLt : Str → Str → Bool
  | [], [] => false
  | [], _ :: _ => true
  | _ :: _, [] => false
  | a :: as, b :: bs => if a < b then true else if b < a then false else strLt as bs

/-- Insert into a strictly `strLt`-sorted list, keeping it sorted and
duplicate-free. -/
def sortedInsert (x : Str) : List Str → List Str
  | [] => [x]
  | y :: ys =>
    if strLt x y then x :: y :: ys
    else if x = y then y :: ys
    else y :: sortedInsert x ys

/-- `sorted(set(l))` in Python: the distinct elements of `l` in ascending
lexicographic order. -/
def sortedDedup (l : List Str) : List Str := l.foldr sortedInsert []

/-! ## Association-list maps (Python `dict` in insertion order) -/

/-- First value bound to `k`, Python `d[k]` / `d.get(k)`. -/
def lookupA {α : Type} (m : List (Str × α)) (k : Str) : Option α :=
  match m with
  | [] => none
  | (k', v) :: t => if k' = k then some v else lookupA t k

/-- The key list of a map, in order. -/
def keysA {α : Type} (m : List (Str × α)) : List Str := m.map Prod.fst

/-- Key membership, Python `k in d`. -/
def memA {α : Type} (m : List (Str × α)) (k : Str) : Bool := (lookupA m k).isSome

/-! ## USB port data (`usb.py`) -/

/-- Device information for one USB port (`_get_usb_device_info` /
empty-port records in `_enumerate_ports_recursive`). -/
structure PortInfo where
  vendor_id : Option Str
  product_id : Option Str
  manufacturer : Option Str
  product : Option Str
  serial : Option Str
  block_devices : List Str
  deriving DecidableEq, Repr

/-- `is_rpiboot_device` (usb.py): the boot-eligibility allow-list check. -/
def is_rpiboot_device (port_info : PortInfo) : Bool :=
  match port_info.vendor_id with
  | some v =>
    if v = "0x0a5c".toList then
      match port_info.product_id with
      | some p => if p = "0x2712".toList ∨ p = "0x2711".toList then true else false
      | none => false
    else false
  | none => false

/-- A ports map: Python's `dict[str, dict]` of port id to device info. -/
abbrev Ports := List (Str × PortInfo)

/-- `int(port_str.split('-')[0])`, the bus number of a port id (`None`
when Python `int` would raise). -/
def busOf (s : Str) : Option Nat := parsePyNat (takeUntil '-' s)

/-- `port_str.split('.', 1)[0]`, the top-level hub component of a port id. -/
def hubOf (s : Str) : Str := takeUntil '.' s

/-- `_is_hub` (usb.py): some other port id extends `port_str + "."`. -/
def is_hub (port_str : Str) (ports_data : Ports) : Bool :=
  (keysA ports_data).any (fun p => (port_str ++ ['.']).isPrefixOf p)

/-- One iteration of the `_build_hub_relations` loop: the relation entry
contributed by raw port `p` with info `info`, if any. -/
def hubRelationEntry (raw : Ports) (p : Str) (info : PortInfo) : Option (Str × Str) :=
  match busOf p with
  | none => none
  | some b =>
    if b % 2 = 0 then none
    else if ¬ is_hub p raw then none
    else
      let usb3_port := replaceFirst p (natRepr b ++ ['-']) (natRepr (b + 1) ++ ['-'])
      match lookupA raw usb3_port with
      | none => none
      | some usb3_info =>
        if usb3_info.vendor_id = info.vendor_id ∧ usb3_info.vendor_id ≠ none ∧
            is_hub usb3_port raw
        then some (p, usb3_port) else none

/-- `_build_hub_relations` (usb.py): map of USB 2 hub port to USB 3 hub
port, built in raw-map iteration order. -/
def build_hub_relations (raw : Ports) : List (Str × Str) :=
  raw.filterMap (fun e => hubRelationEntry raw e.1 e.2)

/-- First relation entry whose value equals `v` (the linear search in
`_find_usb2_counterpart`). -/
def findKeyByValue (rel : List (Str × Str)) (v : Str) : Option Str :=
  match rel with
  | [] => none
  | (k, v') :: t => if v' = v then some k else findKeyByValue t v

/-- `_find_usb2_counterpart` (usb.py). -/
def find_usb2_counterpart (usb3_port_str : Str) (hub_relations : List (Str × Str)) :
    Option Str :=
  match busOf usb3_port_str with
  | none => none
  | some b =>
    if b % 2 ≠ 0 then none
    else
      let usb3_hub := hubOf usb3_port_str
      match findKeyByValue hub_relations usb3_hub with
      | none => none
      | some usb2_hub =>
        if '.' ∈ usb3_port_str then
          some (replaceFirst usb3_port_str usb3_hub usb2_hub)
        else some usb2_hub

/-- `_find_usb3_counterpart` (usb.py). -/
def find_usb3_counterpart (usb2_port_str : Str) (hub_relations : List (Str × Str)) :
    Option Str :=
  match busOf usb2_port_str with
  | none => none
  | some b =>
    if b % 2 = 0 then none
    else
      let usb2_hub := hubOf usb2_port_str
      match lookupA hub_relations usb2_hub with
      | none => none
      | some usb3_hub =>
        if '.' ∈ usb2_port_str then
          some (replaceFirst usb2_port_str usb2_hub usb3_hub)
        else some usb3_hub

/-- Python truthiness of an optional string (`if usb2_port:`). -/
def pyTruthy : Option Str → Bool
  | some s => ¬ s.isEmpty
  | none => false

/-- Python `x or y` on optional strings: `y` when `x` is falsy (`None` or
the empty string). -/
def pyOrStr : Option Str → Option Str → Option Str
  | some s, b => if s.isEmpty then b else some s
  | none, b => b

/-- `_merge_port_info` (usb.py): prefer USB 3 values (`x or y` on optional
strings), union of block-device sets reported back sorted. -/
def merge_port_info (usb2_info usb3_info : PortInfo) : PortInfo :=
  { vendor_id := pyOrStr usb3_info.vendor_id usb2_info.vendor_id
    product_id := pyOrStr usb3_info.product_id usb2_info.product_id
    manufacturer := pyOrStr usb3_info.manufacturer usb2_info.manufacturer
    product := pyOrStr usb3_info.product usb2_info.product
    serial := pyOrStr usb3_info.serial usb2_info.serial
    block_devices := sortedDedup (usb2_info.block_devices ++ usb3_info.block_devices) }

/-- The `unify_ports` loop: walk the raw entries threading the `unified`
output map and the `processed_usb3_ports` set. -/
def unifyGo (raw : Ports) (rel : List (Str × Str)) :
    Ports → Ports → List Str → Ports
  | [], unified, _ => unified
  | (p, info) :: rest, unified, processed =>
    match busOf p with
    | none => unifyGo raw rel rest (unified ++ [(p, info)]) processed
    | some b =>
      if b % 2 = 0 ∧ pyTruthy (find_usb2_counterpart p rel) then
        unifyGo raw rel rest unified (processed ++ [p])
      else if p ∈ processed then
        unifyGo raw rel rest unified processed
      else
        match find_usb3_counterpart p rel with
        | some q =>
          if q.isEmpty then unifyGo raw rel rest (unified ++ [(p, info)]) processed
          else
            match lookupA raw q with
            | some qinfo =>
              unifyGo raw rel rest (unified ++ [(p, merge_port_info info qinfo)])
                (processed ++ [q])
            | none => unifyGo raw rel rest (unified ++ [(p, info)]) processed
        | none => unifyGo raw rel rest (unified ++ [(p, info)]) processed

/-- `unify_ports` (usb.py): merge USB 2/USB 3 port pairs, keeping the
USB 2 id as the canonical key. -/
def unify_ports (raw_ports : Ports) : Ports :=
  unifyGo raw_ports (build_hub_relations raw_ports) raw_ports [] []

/-- `filter_ports_by_limit` (usb.py): the limit port itself plus every
port whose id extends `limit_port + "."`. -/
def filter_ports_by_limit (ports_data : Ports) (limit_port : Str) : Ports :=
  (match lookupA ports_data limit_port with
   | some i => [(limit_port, i)]
   | none => []) ++
  ports_data.filter (fun e => (limit_port ++ ['.']).isPrefixOf e.1)

/-- `find_first_usb_hub` (usb.py): lexicographically smallest port id that
is a hub. (`sorted(keys)` on the duplicate-free dict key list.) -/
def find_first_usb_hub (ports_data : Ports) : Option Str :=
  (sortedDedup (keysA ports_data)).find? (fun p => is_hub p ports_data)

/-! ## Flash engine (`flash.py`) -/

/-- Python default `str.strip()` whitespace. -/
def isPySpace (c : Char) : Bool :=
  c = ' ' ∨ c = '\t' ∨ c = '\n' ∨ c = '\x0d' ∨ c = '\x0b' ∨ c = '\x0c'

/-- Python `s.strip()`. -/
def pyStrip (s : Str) : Str :=
  ((s.dropWhile isPySpace).reverse.dropWhile isPySpace).reverse

/-- Python `s.upper()` (ASCII range, which covers the size suffixes). -/
def pyUpper (s : Str) : Str := s.map Char.toUpper

/-- Python `int(s)` for signed decimal notation (see `parsePyNat`). -/
def parsePyInt (s : Str) : Option Int :=
  match s with
  | '-' :: r =>
    if r ≠ [] ∧ r.all Char.isDigit then some (-(digitsVal r : Int)) else none
  | _ => (parsePyNat s).map Int.ofNat

/-- `parse_block_size` (flash.py): strip and upcase, then interpret a
trailing `K`/`M`/`G` binary-multiple suffix; otherwise the whole string is
a byte count. `none` models the raised `ValueError`. -/
def parse_block_size (block_size_str : Str) : Option Int :=
  let t := pyUpper (pyStrip block_size_str)
  if t = [] then none
  else
    match t.getLast? with
    | some 'K' => (parsePyInt t.dropLast).map (· * 1024)
    | some 'M' => (parsePyInt t.dropLast).map (· * (1024 * 1024))
    | some 'G' => (parsePyInt t.dropLast).map (· * (1024 * 1024 * 1024))
    | _ => parsePyInt t

/-- Arguments passed to the progress callback. -/
inductive CbArg where
  | argStr (s : Str)
  | argNat (n : Nat)
  | argPct (q : ℚ)
  deriving DecidableEq, Repr

/-- Observable I/O events of one `flash_image` call, in order. -/
inductive FlashEv where
  | evUnmount (mp : Str)
  | evOpen
  | evWrite (idx : Nat) (len : Nat)
  | evCallback (args : List CbArg)
  | evCbRaised (idx : Nat)
  | evFsync
  | evCloseDev
  | evSyncFs
  deriving DecidableEq, Repr

/-- Result of one `flash_image` call (`ok`, or which exception type
propagated to the caller). -/
inductive FlashResult where
  | ok
  | valueError
  | ioError
  | permError
  deriving DecidableEq, Repr

/-- Outcome of opening the target block device. -/
inductive OpenRes where
  | openOk
  | openPerm
  | openIO
  deriving DecidableEq, Repr

/-- The host environment one `flash_image` call runs against: the mount
table for the target, and the outcome of each unmount / open / chunk
write / callback invocation. -/
structure FlashEnv where
  mounted : List Str
  unmountOk : Str → Bool
  openResult : OpenRes
  writeOk : Nat → Bool
  callbackRaises : Nat → Bool

/-- The `unmount_device` loop over the mounted partitions: stops at, and
reports, the first failing unmount. -/
def unmountGo (env : FlashEnv) : List Str → Bool × List FlashEv
  | [] => (true, [])
  | mp :: rest =>
    if env.unmountOk mp then
      let r := unmountGo env rest
      (r.1, .evUnmount mp :: r.2)
    else (false, [.evUnmount mp])

/-- `unmount_device` (flash.py): `True` iff every mounted partition of the
target unmounted cleanly (trivially true when nothing is mounted). -/
def unmount_device (env : FlashEnv) : Bool × List FlashEv :=
  if env.mounted = [] then (true, [])
  else unmountGo env env.mounted

/-- The chunked write loop of `flash_image`: returns `none` when a chunk
write raised (modelled `IOError`), and the events in order. The progress
callback is invoked after each successful chunk write; a callback
exception is caught on the spot (`evCbRaised` records the logged
exception) and the loop continues. -/
def writeLoop (env : FlashEnv) (csize : Int) (fileSize : Nat)
    (nonInteractive : Bool) (target : Str) (hasCb : Bool) :
    Nat → Nat → Nat → Nat → Option Nat × List FlashEv
  | 0, _, written, _ => (some written, [])
  | fuel + 1, offset, written, idx =>
    if offset < fileSize then
      -- chunk = image_mmap[offset:min(offset+chunk_size, file_size)]
      let len := min csize.toNat (fileSize - offset)
      if len = 0 then (some written, [])  -- `if not chunk: break`
      else if env.writeOk idx then
        let written' := written + len
        let pct : ℚ := if fileSize = 0 then 0 else (written' : ℚ) / (fileSize : ℚ) * 100
        let cbEvs : List FlashEv :=
          if hasCb then
            let args := if nonInteractive then
                [CbArg.argNat written', CbArg.argNat fileSize, CbArg.argPct pct]
              else
                [CbArg.argStr target, CbArg.argNat written', CbArg.argNat fileSize,
                  CbArg.argPct pct]
            FlashEv.evCallback args ::
              (if env.callbackRaises idx then [FlashEv.evCbRaised idx] else [])
          else []
        let r := writeLoop env csize fileSize nonInteractive target hasCb
          fuel (offset + len) written' (idx + 1)
        (r.1, FlashEv.evWrite idx len :: cbEvs ++ r.2)
      else (none, [FlashEv.evWrite idx len])
    else (some written, [])

/-- `flash_image` (flash.py): parse the chunk size, unmount the target's
partitions, open the device, stream the image in chunks with progress
callbacks, then fsync, close and filesystem-sync. Returns the propagated
result and the ordered I/O events. -/
def flash_image (env : FlashEnv) (fileSize : Nat) (block_size : Str)
    (non_interactive : Bool) (hasCb : Bool) (target_device : Str) :
    FlashResult × List FlashEv :=
  match parse_block_size block_size with
  | none => (FlashResult.valueError, [])
  | some cs =>
    let u := unmount_device env
    if u.1 = false then (FlashResult.ioError, u.2)
    else
      match env.openResult with
      | OpenRes.openPerm => (FlashResult.permError, u.2 ++ [FlashEv.evOpen])
      | OpenRes.openIO => (FlashResult.ioError, u.2 ++ [FlashEv.evOpen])
      | OpenRes.openOk =>
        -- fuel `fileSize` bounds the chunk count: every iteration advances
        -- the offset by at least one byte, so the loop's own exit
        -- conditions always fire first
        let w := writeLoop env cs fileSize non_interactive target_device hasCb
          fileSize 0 0 0
        match w.1 with
        | none =>
          -- write failed: exception propagates, `finally` closes the device
          (FlashResult.ioError, u.2 ++ [FlashEv.evOpen] ++ w.2 ++ [FlashEv.evCloseDev])
        | some _ =>
          (FlashResult.ok, u.2 ++ [FlashEv.evOpen] ++ w.2 ++
            [FlashEv.evFsync, FlashEv.evCloseDev, FlashEv.evSyncFs])

/-! ## Lifecycle coordinator (`daemon.py`) -/

/-- The port state labels of daemon.py. -/
inductive PState where
  | not_connected
  | unknown
  | booting
  | waiting
  | flashing
  | completed
  | failed
  deriving DecidableEq, Repr

/-- Progress dictionaries (`progress` field) are string-keyed dicts of
numbers; timestamps and percentages are modelled as `ℚ`. -/
abbrev PyDict := List (Str × ℚ)

/-- Python dict assignment `d[k] = v`: overwrite in place, or append a new
binding. -/
def dictSet : PyDict → Str → ℚ → PyDict
  | [], k, v => [(k, v)]
  | (k', v') :: t, k, v => if k' = k then (k, v) :: t else (k', v') :: dictSet t k v

/-- One entry of the coordinator's `port_states` map. -/
structure PortState where
  state : PState
  block_devices : List Str
  detected_time : ℚ
  progress : PyDict
  error : Option Str
  deriving DecidableEq, Repr

/-- The coordinator's `port_states` dict. -/
abbrev PortStates := List (Str × PortState)

/-- Python dict assignment on an association map. -/
def setA {α : Type} : List (Str × α) → Str → α → List (Str × α)
  | [], k, v => [(k, v)]
  | (k', v') :: t, k, v => if k' = k then (k, v) :: t else (k', v') :: setA t k v

/-- Python `d.pop(k, None)`: drop the binding of `k` if present. -/
def popA {α : Type} : List (Str × α) → Str → List (Str × α)
  | [], _ => []
  | (k', v) :: t, k => if k' = k then t else (k', v) :: popA t k

/-- In-place mutation of the entry bound to `k` (no-op when absent). -/
def updateA {α : Type} : List (Str × α) → Str → (α → α) → List (Str × α)
  | [], _, _ => []
  | (k', v) :: t, k, f => if k' = k then (k', f v) :: t else (k', v) :: updateA t k f

def kBytesWritten : Str := "bytes_written".toList
def kTotalBytes : Str := "total_bytes".toList
def kPercent : Str := "percent".toList
def kStartTime : Str := "start_time".toList

/-- The fresh progress dict `{'bytes_written': 0, 'total_bytes': 0,
'percent': 0.0, 'start_time': now}`. -/
def initProgress (now : ℚ) : PyDict :=
  [(kBytesWritten, 0), (kTotalBytes, 0), (kPercent, 0), (kStartTime, now)]

/-- Per-port output of one poll-tick evaluation: the updated map, the
block devices submitted to the flash pool for this port (in submit
order), and whether an rpiboot background task was started. -/
structure StepOut where
  states : PortStates
  dispatched : List Str
  bootStarted : Bool
  deriving Repr

/-- The per-port state transition of one `monitor_devices` poll tick
(daemon.py lines 312-463), for a downstream port `p` (≠ monitor port)
currently enumerated with `info`. `image_available` models
`_image_mmap` being non-`None`. -/
def stepPort (states : PortStates) (p : Str) (info : PortInfo) (now : ℚ)
    (stable_delay : ℚ) (image_available : Bool) : StepOut :=
  let current := match lookupA states p with
    | some s => s.state
    | none => PState.not_connected
  let blocks := info.block_devices
  match current with
  | PState.not_connected =>
    if blocks ≠ [] then
      { states := setA states p
          { state := PState.waiting, block_devices := blocks,
            detected_time := now, progress := [], error := none },
        dispatched := [], bootStarted := false }
    else if is_rpiboot_device info then
      { states := setA states p
          { state := PState.booting, block_devices := [],
            detected_time := now, progress := [], error := none },
        dispatched := [], bootStarted := true }
    else if info.vendor_id ≠ none ∨ info.product_id ≠ none then
      { states := setA states p
          { state := PState.unknown, block_devices := [],
            detected_time := now, progress := [], error := none },
        dispatched := [], bootStarted := false }
    else
      { states := states, dispatched := [], bootStarted := false }
  | PState.booting =>
    if blocks ≠ [] then
      { states := updateA states p (fun s =>
          { s with state := PState.waiting, block_devices := blocks,
                   detected_time := now }),
        dispatched := [], bootStarted := false }
    else
      { states := states, dispatched := [], bootStarted := false }
  | PState.waiting =>
    -- update the snapshot first, as the source does
    let states1 := updateA states p (fun s => { s with block_devices := blocks })
    if blocks = [] then
      { states := updateA states1 p (fun s => { s with state := PState.not_connected }),
        dispatched := [], bootStarted := false }
    else
      let detected := match lookupA states p with
        | some s => s.detected_time
        | none => now
      if now - detected ≥ stable_delay then
        if ¬ image_available then
          { states := updateA states1 p (fun s =>
              { s with state := PState.failed,
                       error := some "Image not available".toList }),
            dispatched := [], bootStarted := false }
        else
          { states := updateA states1 p (fun s =>
              { s with state := PState.flashing, progress := initProgress now }),
            dispatched := blocks, bootStarted := false }
      else
        { states := states1, dispatched := [], bootStarted := false }
  | PState.flashing =>
    { states := updateA states p (fun s => { s with block_devices := blocks }),
      dispatched := [], bootStarted := false }
  | PState.completed =>
    let states1 := updateA states p (fun s => { s with block_devices := blocks })
    if blocks = [] then
      { states := popA states1 p, dispatched := [], bootStarted := false }
    else
      { states := states1, dispatched := [], bootStarted := false }
  | PState.failed =>
    let states1 := updateA states p (fun s => { s with block_devices := blocks })
    if blocks = [] then
      { states := popA states1 p, dispatched := [], bootStarted := false }
    else
      { states := states1, dispatched := [], bootStarted := false }
  | PState.unknown =>
    if blocks ≠ [] then
      { states := updateA states p (fun s =>
          { s with state := PState.waiting, block_devices := blocks,
                   detected_time := now }),
        dispatched := [], bootStarted := false }
    else if info.vendor_id = none ∧ info.product_id = none then
      { states := popA states p, dispatched := [], bootStarted := false }
    else
      { states := states, dispatched := [], bootStarted := false }

/-- Full-tick output: updated map plus all flash submissions of the tick
as (port, device) pairs. -/
structure TickOut where
  states : PortStates
  dispatched : List (Str × Str)
  deriving Repr

/-- Port-processing loop of one poll tick over the downstream ports. -/
def tickGo (monitor_port : Str) (now stable_delay : ℚ) (image_available : Bool) :
    Ports → PortStates → TickOut
  | [], states => { states := states, dispatched := [] }
  | (p, info) :: rest, states =>
    if p = monitor_port then tickGo monitor_port now stable_delay image_available rest states
    else
      let o := stepPort states p info now stable_delay image_available
      let r := tickGo monitor_port now stable_delay image_available rest o.states
      { states := r.states, dispatched := o.dispatched.map (fun d => (p, d)) ++ r.dispatched }

/-- One full poll tick of `monitor_devices`: process every downstream
port, then purge map entries whose port is no longer enumerated. -/
def tick (states : PortStates) (downstream_ports : Ports) (monitor_port : Str)
    (now stable_delay : ℚ) (image_available : Bool) : TickOut :=
  let o := tickGo monitor_port now stable_delay image_available downstream_ports states
  { states := o.states.filter (fun e => decide (e.1 ∈ keysA downstream_ports)),
    dispatched := o.dispatched }

/-! ### Background-task map mutations -/

/-- The map mutation the background flash task performs at start
(daemon.py `flash_device`, lines 144-162): re-create the entry if the key
is absent, then force `state = FLASHING` and reset the progress dict. -/
def flash_device_init (port_states : PortStates) (p : Str) (now : ℚ) : PortStates :=
  let m1 :=
    if memA port_states p then port_states
    else setA port_states p
      { state := PState.flashing, block_devices := [], detected_time := now,
        progress := [], error := none }
  updateA m1 p (fun s =>
    { s with state := PState.flashing, progress := initProgress now })

/-- The flash task's progress callback (daemon.py lines 164-172): update
three progress keys and force `state = FLASHING`, only when the key is
still present. -/
def flash_progress_update (port_states : PortStates) (p : Str)
    (bytes_written total_bytes : Nat) (percent : ℚ) : PortStates :=
  if memA port_states p then
    updateA port_states p (fun s =>
      { s with
        progress := dictSet (dictSet (dictSet s.progress
          kBytesWritten (bytes_written : ℚ)) kTotalBytes (total_bytes : ℚ))
          kPercent percent,
        state := PState.flashing })
  else port_states

/-- The flash task's completion update (daemon.py lines 179-193). -/
def flash_finish (port_states : PortStates) (p : Str) (success : Bool)
    (err : Str) : PortStates :=
  if success then
    if memA port_states p then
      updateA port_states p (fun s =>
        { s with state := PState.completed,
                 progress := dictSet s.progress kPercent 100, error := none })
    else port_states
  else
    if memA port_states p then
      updateA port_states p (fun s =>
        { s with state := PState.failed, error := some err })
    else port_states

/-- The rpiboot background task's completion update (daemon.py lines
343-359): on success leave the entry to the next poll tick, on failure
mark it FAILED — in both cases only when the key is still present. -/
def boot_finish (port_states : PortStates) (p : Str) (success : Bool)
    (err : Str) : PortStates :=
  if memA port_states p then
    if success then port_states
    else
      updateA port_states p (fun s =>
        { s with state := PState.failed, error := some err })
  else port_states

/-! ### Daemon startup (`run_daemon`) -/

/-- `find_monitor_port` (daemon.py): the configured port when it exists,
otherwise the first auto-detected hub. -/
def find_monitor_port (ports_data : Ports) (config_port : Option Str) : Option Str :=
  match config_port with
  | some cp => if memA ports_data cp then some cp else none
  | none => find_first_usb_hub ports_data

/-- Environment of one `run_daemon` startup: whether config loading
succeeds, whether `create_image_mmap` succeeds, and the enumerated ports. -/
structure StartupEnv where
  configOk : Bool
  mmapOk : Bool
  ports : Ports
  configPort : Option Str

/-- Observable outcome of `run_daemon` startup. -/
structure StartupOut where
  exitCode : Int
  monitoringRan : Bool
  imageAtStart : Bool
  deriving DecidableEq, Repr

/-- The startup control flow of `run_daemon` (daemon.py lines 532-592):
config failure exits 1; an mmap failure is downgraded to a warning and a
`None` image; an unresolvable monitor port exits 1; otherwise monitoring
runs (and the daemon later exits 0). -/
def run_daemon_startup (env : StartupEnv) : StartupOut :=
  if ¬ env.configOk then
    { exitCode := 1, monitoringRan := false, imageAtStart := false }
  else
    let img := env.mmapOk
    match find_monitor_port env.ports env.configPort with
    | none => { exitCode := 1, monitoringRan := false, imageAtStart := img }
    | some _ => { exitCode := 0, monitoringRan := true, imageAtStart := img }

/-! ### Single-port poll traces -/

/-- Run successive poll ticks for one port `p` that stays enumerated with
the given (time, info) inputs; returns the final map and each tick's
dispatch list for `p`. -/
def runPort (stable_delay : ℚ) (image_available : Bool) (p : Str) :
    PortStates → List (ℚ × PortInfo) → PortStates × List (List Str)
  | states, [] => (states, [])
  | states, (now, info) :: rest =>
    let o := stepPort states p info now stable_delay image_available
    let r := runPort stable_delay image_available p o.states rest
    (r.1, o.dispatched :: r.2)

/-! ## Claim theorems -/

/-- A flash environment where everything succeeds. -/
def envAllOk : FlashEnv :=
  { mounted := [], unmountOk := fun _ => true, openResult := OpenRes.openOk,
    writeOk := fun _ => true, callbackRaises := fun _ => false }

/-- A flash environment with one mounted partition whose unmount fails. -/
def envUnmountFail : FlashEnv :=
  { mounted := ["/mnt/a".toList], unmountOk := fun _ => false,
    openResult := OpenRes.openOk, writeOk := fun _ => true,
    callbackRaises := fun _ => false }

/-- The argument count of each callback invocation in an event trace. -/
def cbArgCounts (evs : List FlashEv) : List Nat :=
  evs.filterMap (fun ev =>
    match ev with
    | FlashEv.evCallback args => some args.length
    | _ => none)

/-- Event is not the logged record of a raising callback. -/
def notCbRaised : FlashEv → Bool
  | FlashEv.evCbRaised _ => false
  | _ => true

/-- Event is a callback invocation. -/
def isCbEv : FlashEv → Bool
  | FlashEv.evCallback _ => true
  | _ => false

/-- Event is a chunk write. -/
def isWriteEv : FlashEv → Bool
  | FlashEv.evWrite _ _ => true
  | _ => false

/-- A port info with only a serial number: an identity field, but neither
vendor id nor product id. -/
def serialOnlyInfo : PortInfo :=
  { vendor_id := none, product_id := none, manufacturer := none,
    product := none, serial := some "ABC123".toList, block_devices := [] }

/-- Witness for [not_connected_to_unknown_iff]: a port with a vendor id,
no block devices and no boot eligibility gets an UNKNOWN entry. -/
def vendorOnlyInfo : PortInfo :=
  { vendor_id := some "0x1234".toList, product_id := none, manufacturer := none,
    product := none, serial := none, block_devices := [] }

/-- A completed port entry used in the C4 counterexample. -/
def completedEntry : PortState :=
  { state := PState.completed, block_devices := ["/dev/sda".toList],
    detected_time := 0, progress := [], error := none }

/-- A port info that still reports a vendor id but no block devices. -/
def vendorNoBlocksInfo : PortInfo :=
  { vendor_id := some "0x0781".toList, product_id := some "0x5567".toList,
    manufacturer := none, product := none, serial := none, block_devices := [] }

/-- An empty-port info record. -/
def emptyInfo : PortInfo :=
  { vendor_id := none, product_id := none, manufacturer := none,
    product := none, serial := none, block_devices := [] }

/-- Startup environment whose image cannot be memory-mapped. -/
def cexStartupEnv : StartupEnv :=
  { configOk := true, mmapOk := false,
    ports := [("1-1".toList, emptyInfo)], configPort := some "1-1".toList }

/-- Default tick input (used only for out-of-range indexing). -/
def dfltTick : ℚ × PortInfo := (0, emptyInfo)

/-- C3 counterexample: with the memory-mapped image unavailable (the
fallback state C2 exhibits), a port whose block devices persist past the
stable delay never transitions WAITING→FLASHING: no tick dispatches any
task and the port ends FAILED. -/
def blocksOnlyInfo : PortInfo :=
  { vendor_id := none, product_id := none, manufacturer := none,
    product := none, serial := none, block_devices := ["/dev/sda".toList] }

/-- The bus-prefix substitution of `_build_hub_relations`:
`port_str.replace(f"{bus_num}-", f"{bus_num + 1}-", 1)`. -/
def advStr (s : Str) (b : Nat) : Str :=
  replaceFirst s (natRepr b ++ ['-']) (natRepr (b + 1) ++ ['-'])

/-- The per-entry effect of the `unify_ports` loop: `none` when the entry
is an even-bus port absorbed by a USB 2 counterpart, otherwise the
(possibly merged) info kept under the same key. -/
def unifyEntry (rel : List (Str × Str)) (raw : Ports) (p : Str)
    (info : PortInfo) : Option PortInfo :=
  match busOf p with
  | none => some info
  | some b =>
    if b % 2 = 0 ∧ pyTruthy (find_usb2_counterpart p rel) then none
    else
      match find_usb3_counterpart p rel with
      | some q =>
        if q.isEmpty then some info
        else
          match lookupA raw q with
          | some qinfo => some (merge_port_info info qinfo)
          | none => some info
      | none => some info

/-- The pointwise form of `unify_ports`. -/
def unifyPt (rel : List (Str × Str)) (raw : Ports) (l : Ports) : Ports :=
  l.filterMap (fun e => (unifyEntry rel raw e.1 e.2).map (fun i => (e.1, i)))

def hubInfo2 : PortInfo :=
  ⟨some "0x1d6b".toList, some "0x0002".toList, none, none, none, []⟩

def hubInfo3 : PortInfo :=
  ⟨some "0x1d6b".toList, some "0x0003".toList, none, none, none, []⟩

def childInfo2 : PortInfo :=
  ⟨some "0x0781".toList, some "0x5567".toList, none, none, none,
    ["sda".toList]⟩

def childInfo3 : PortInfo :=
  ⟨some "0x0781".toList, some "0x5567".toList, none, none, none,
    ["sdb".toList]⟩

/-- A raw ports map with a USB 2 / USB 3 hub pair and one device under
each, exercising relation building and merging. -/
def usbRawExample : Ports :=
  [("1-3".toList, hubInfo2), ("1-3.5".toList, childInfo2),
   ("2-3".toList, hubInfo3), ("2-3.5".toList, childInfo3)]

/-- C10: `is_rpiboot_device` accepts exactly vendor id `0x0a5c` with
product id `0x2712` or `0x2711`, and rejects every other port info,
including any with a missing vendor or product id. -/
theorem is_rpiboot_allow_list (info : PortInfo) :
    is_rpiboot_device info = true ↔
      (info.vendor_id = some "0x0a5c".toList ∧
        (info.product_id = some "0x2712".toList ∨
          info.product_id = some "0x2711".toList)) := by
  cases hv : info.vendor_id with
  | none => simp [is_rpiboot_device, hv]
  | some v =>
    cases hp : info.product_id with
    | none =>
      simp only [is_rpiboot_device, hv, hp]
      split <;> simp_all
    | some q =>
      simp only [is_rpiboot_device, hv, hp]
      by_cases h1 : v = "0x0a5c".toList <;>
        by_cases h2 : q = "0x2712".toList ∨ q = "0x2711".toList <;>
        simp [h1, h2]

/-- C6: chunk-size parsing maps `"4M"`, `"512K"`, `"1G"`, `"100"` to
4194304, 524288, 1073741824 and 100; the inputs `""`, `"4X"` and `"M4"`
raise a `ValueError`, and in `flash_image` that error is raised before
any I/O event (no unmount, open or write occurs). -/
theorem parse_block_size_spec :
    parse_block_size "4M".toList = some 4194304 ∧
    parse_block_size "512K".toList = some 524288 ∧
    parse_block_size "1G".toList = some 1073741824 ∧
    parse_block_size "100".toList = some 100 ∧
    parse_block_size "".toList = none ∧
    parse_block_size "4X".toList = none ∧
    parse_block_size "M4".toList = none ∧
    (∀ (env : FlashEnv) (fileSize : Nat) (ni cb : Bool) (bs tgt : Str),
      parse_block_size bs = none →
      flash_image env fileSize bs ni cb tgt = (FlashResult.valueError, [])) := by
  refine ⟨rfl, rfl, rfl, rfl, rfl, rfl, rfl, ?_⟩
  intro env fileSize ni cb bs tgt h
  simp [flash_image, h]

/-- Witness for [parse_block_size_spec]: the invalid spec `"4X"` yields a
parameter error with an empty I/O trace. -/
theorem parse_block_size_spec_witness :
    flash_image envAllOk 16 "4X".toList true true "/dev/sda".toList =
      (FlashResult.valueError, []) :=
  parse_block_size_spec.2.2.2.2.2.2.2 envAllOk 16 true true "4X".toList
    "/dev/sda".toList rfl

/-- Every event emitted by the unmount loop is an unmount attempt. -/
theorem unmountGo_events (env : FlashEnv) (l : List Str) :
    ∀ ev ∈ (unmountGo env l).2, ∃ mp, ev = FlashEv.evUnmount mp := by
  induction l with
  | nil => simp [unmountGo]
  | cons mp rest ih =>
    simp only [unmountGo]
    split
    · intro ev hev
      rcases List.mem_cons.mp hev with h | h
      · exact ⟨mp, h⟩
      · exact ih ev h
    · intro ev hev
      rcases List.mem_cons.mp hev with h | h
      · exact ⟨mp, h⟩
      · simp at h

/-- C7: when the chunk-size spec is valid but some unmount attempt fails,
`flash_image` aborts with `IOError`, the target is never opened for
writing, and no chunk write happens. -/
theorem flash_unmount_failure_aborts (env : FlashEnv) (fileSize : Nat)
    (bs tgt : Str) (cs : Int) (ni cb : Bool)
    (hcs : parse_block_size bs = some cs)
    (hfail : (unmount_device env).1 = false) :
    (flash_image env fileSize bs ni cb tgt).1 = FlashResult.ioError ∧
    FlashEv.evOpen ∉ (flash_image env fileSize bs ni cb tgt).2 ∧
    ∀ i n, FlashEv.evWrite i n ∉ (flash_image env fileSize bs ni cb tgt).2 := by
  have hevs : ∀ ev ∈ (unmount_device env).2, ∃ mp, ev = FlashEv.evUnmount mp := by
    unfold unmount_device
    split
    · simp
    · exact unmountGo_events env env.mounted
  simp only [flash_image, hcs, hfail, if_pos rfl]
  refine ⟨rfl, ?_, ?_⟩
  · intro hmem
    rcases hevs _ hmem with ⟨mp, h⟩
    cases h
  · intro i n hmem
    rcases hevs _ hmem with ⟨mp, h⟩
    cases h

/-- Witness for [flash_unmount_failure_aborts] at a concrete failing
environment. -/
theorem flash_unmount_failure_aborts_witness :
    (flash_image envUnmountFail 8 "4M".toList true true "/dev/sda".toList).1 =
      FlashResult.ioError ∧
    FlashEv.evOpen ∉
      (flash_image envUnmountFail 8 "4M".toList true true "/dev/sda".toList).2 ∧
    ∀ i n, FlashEv.evWrite i n ∉
      (flash_image envUnmountFail 8 "4M".toList true true "/dev/sda".toList).2 :=
  flash_unmount_failure_aborts envUnmountFail 8 "4M".toList "/dev/sda".toList
    4194304 true true rfl rfl

/-- C8 counterexample: in interactive mode the progress callback is
invoked with four arguments `(target_device, bytes_written, total_bytes,
percent)` — not the claimed three. -/
theorem flash_callback_interactive_four_args :
    cbArgCounts (flash_image envAllOk 4 "4M".toList false true
      "/dev/sda".toList).2 = [4] ∧ (4 : Nat) ≠ 3 := by
  exact ⟨rfl, by decide⟩

/-- Shape of every callback invocation the write loop emits. -/
theorem writeLoop_callback_shape (env : FlashEnv) (cs : Int) (fs : Nat)
    (ni : Bool) (tgt : Str) (cb : Bool) (fuel off w idx : Nat) :
    ∀ args, FlashEv.evCallback args ∈ (writeLoop env cs fs ni tgt cb fuel off w idx).2 →
      ∃ w' pct, args = if ni then
          [CbArg.argNat w', CbArg.argNat fs, CbArg.argPct pct]
        else
          [CbArg.argStr tgt, CbArg.argNat w', CbArg.argNat fs, CbArg.argPct pct] := by
  induction fuel generalizing off w idx with
  | zero => simp [writeLoop]
  | succ fuel ih =>
    intro args hmem
    simp only [writeLoop] at hmem
    split at hmem
    · split at hmem
      · simp at hmem
      · split at hmem
        · simp only [List.mem_cons, List.mem_append] at hmem
          rcases hmem with (h | h) | h
          · simp at h
          · split at h
            · simp only [List.mem_cons] at h
              rcases h with h | h
              · injection h with h
                subst h
                cases ni
                · exact ⟨_, _, rfl⟩
                · exact ⟨_, _, rfl⟩
              · split at h <;> simp at h
            · simp at h
          · exact ih _ _ _ args h
        · simp only [List.mem_singleton] at hmem
          simp at hmem
    · simp at hmem

/-- The write loop's result and non-logging events do not depend on
whether the progress callback raises. -/
theorem writeLoop_callback_raise_immaterial (env : FlashEnv) (g : Nat → Bool)
    (cs : Int) (fs : Nat) (ni : Bool) (tgt : Str) (cb : Bool)
    (fuel off w idx : Nat) :
    (writeLoop { env with callbackRaises := g } cs fs ni tgt cb fuel off w idx).1 =
      (writeLoop env cs fs ni tgt cb fuel off w idx).1 ∧
    ((writeLoop { env with callbackRaises := g } cs fs ni tgt cb fuel off w idx).2.filter
        notCbRaised =
      (writeLoop env cs fs ni tgt cb fuel off w idx).2.filter notCbRaised) := by
  induction fuel generalizing off w idx with
  | zero => simp [writeLoop]
  | succ fuel ih =>
    simp only [writeLoop]
    split
    · split
      · simp
      · split
        · rcases ih (off + min cs.toNat (fs - off)) (w + min cs.toNat (fs - off))
            (idx + 1) with ⟨h1, h2⟩
          refine ⟨h1, ?_⟩
          simp only [List.filter_cons, List.filter_append]
          split <;> split <;>
            simp_all [notCbRaised, List.filter_cons, List.filter_append,
              apply_ite (List.filter notCbRaised)]
        · simp
    · simp

/-- With every chunk write succeeding, the write loop emits exactly one
callback invocation per chunk write. -/
theorem writeLoop_cb_per_write (env : FlashEnv) (cs : Int) (fs : Nat)
    (ni : Bool) (tgt : Str) (fuel off w idx : Nat)
    (hok : ∀ i, env.writeOk i = true) :
    ((writeLoop env cs fs ni tgt true fuel off w idx).2.countP isCbEv =
      (writeLoop env cs fs ni tgt true fuel off w idx).2.countP isWriteEv) := by
  induction fuel generalizing off w idx with
  | zero => simp [writeLoop]
  | succ fuel ih =>
    simp only [writeLoop]
    split
    · split
      · simp
      · rw [if_pos (hok idx)]
        have hrec := ih (off + min cs.toNat (fs - off)) (w + min cs.toNat (fs - off))
          (idx + 1)
        by_cases hr : env.callbackRaises idx = true <;>
          simp [hr, List.countP_cons, List.countP_append, isCbEv, isWriteEv, hrec]
    · simp

/-- Callback events of a full `flash_image` run all come from the write
loop. -/
theorem flash_image_callback_mem (env : FlashEnv) (fs : Nat) (bs tgt : Str)
    (ni : Bool) (args : List CbArg)
    (hmem : FlashEv.evCallback args ∈ (flash_image env fs bs ni true tgt).2) :
    ∃ cs, parse_block_size bs = some cs ∧
      FlashEv.evCallback args ∈ (writeLoop env cs fs ni tgt true fs 0 0 0).2 := by
  have humt : ∀ ev ∈ (unmount_device env).2, ∃ mp, ev = FlashEv.evUnmount mp := by
    unfold unmount_device
    split
    · simp
    · exact unmountGo_events env env.mounted
  cases hcs : parse_block_size bs with
  | none =>
    unfold flash_image at hmem
    rw [hcs] at hmem
    simp at hmem
  | some cs =>
    unfold flash_image at hmem
    rw [hcs] at hmem
    refine ⟨cs, rfl, ?_⟩
    simp only [] at hmem
    by_cases hu : (unmount_device env).1 = false
    · rw [if_pos hu] at hmem
      exfalso
      rcases humt _ hmem with ⟨mp, h⟩
      simp at h
    · rw [if_neg hu] at hmem
      cases hop : env.openResult <;> rw [hop] at hmem
      · -- openOk
        cases hw : (writeLoop env cs fs ni tgt true fs 0 0 0).1 <;>
            rw [hw] at hmem <;>
          simp only [List.mem_append, List.mem_singleton, List.mem_cons] at hmem
        · rcases hmem with ((h | h) | h) | h
          · exfalso; rcases humt _ h with ⟨mp, hh⟩; simp at hh
          · simp at h
          · exact h
          · simp at h
        · rcases hmem with ((h | h) | h) | h
          · exfalso; rcases humt _ h with ⟨mp, hh⟩; simp at hh
          · simp at h
          · exact h
          · rcases h with h | h | h <;> simp at h
      · -- openPerm
        simp only [List.mem_append, List.mem_singleton] at hmem
        rcases hmem with h | h
        · exfalso; rcases humt _ h with ⟨mp, hh⟩; simp at hh
        · simp at h
      · -- openIO
        simp only [List.mem_append, List.mem_singleton] at hmem
        rcases hmem with h | h
        · exfalso; rcases humt _ h with ⟨mp, hh⟩; simp at hh
        · simp at h

/-- Changing the callback-raise behaviour does not change the unmount
phase. -/
theorem unmountGo_callbackRaises (env : FlashEnv) (g : Nat → Bool) (l : List Str) :
    unmountGo { env with callbackRaises := g } l = unmountGo env l := by
  induction l with
  | nil => rfl
  | cons mp rest ih => simp [unmountGo, ih]

theorem unmount_device_callbackRaises (env : FlashEnv) (g : Nat → Bool) :
    unmount_device { env with callbackRaises := g } = unmount_device env := by
  unfold unmount_device
  rw [unmountGo_callbackRaises]

/-- No event of the unmount phase is a callback or a write. -/
theorem unmount_device_no_cb_write (env : FlashEnv) :
    (unmount_device env).2.countP isCbEv = 0 ∧
    (unmount_device env).2.countP isWriteEv = 0 := by
  have humt : ∀ ev ∈ (unmount_device env).2, ∃ mp, ev = FlashEv.evUnmount mp := by
    unfold unmount_device
    split
    · simp
    · exact unmountGo_events env env.mounted
  constructor <;>
    · rw [List.countP_eq_zero]
      intro ev hev
      rcases humt ev hev with ⟨mp, rfl⟩
      simp [isCbEv, isWriteEv]

/-- C8 (amended): in non-interactive mode every progress-callback
invocation carries exactly `(bytes_written, total_bytes, percent)`; in
interactive mode it carries the four arguments `(target_device,
bytes_written, total_bytes, percent)`; in both modes an exception raised
by the callback is caught where it is raised — the run's result and its
non-logging events are independent of whether the callback raises — and,
when every chunk write succeeds, there is exactly one invocation per
chunk write. -/
theorem flash_progress_callback_contract :
    (∀ (env : FlashEnv) (fs : Nat) (bs tgt : Str) (args : List CbArg),
      FlashEv.evCallback args ∈ (flash_image env fs bs true true tgt).2 →
      ∃ w pct, args = [CbArg.argNat w, CbArg.argNat fs, CbArg.argPct pct]) ∧
    (∀ (env : FlashEnv) (fs : Nat) (bs tgt : Str) (args : List CbArg),
      FlashEv.evCallback args ∈ (flash_image env fs bs false true tgt).2 →
      ∃ w pct, args =
        [CbArg.argStr tgt, CbArg.argNat w, CbArg.argNat fs, CbArg.argPct pct]) ∧
    (∀ (env : FlashEnv) (g : Nat → Bool) (fs : Nat) (bs tgt : Str) (ni : Bool),
      (flash_image { env with callbackRaises := g } fs bs ni true tgt).1 =
        (flash_image env fs bs ni true tgt).1 ∧
      ((flash_image { env with callbackRaises := g } fs bs ni true tgt).2.filter
          notCbRaised =
        (flash_image env fs bs ni true tgt).2.filter notCbRaised)) ∧
    (∀ (env : FlashEnv) (fs : Nat) (bs tgt : Str) (ni : Bool),
      (∀ i, env.writeOk i = true) →
      (flash_image env fs bs ni true tgt).2.countP isCbEv =
        (flash_image env fs bs ni true tgt).2.countP isWriteEv) := by
  refine ⟨?_, ?_, ?_, ?_⟩
  · intro env fs bs tgt args hmem
    rcases flash_image_callback_mem env fs bs tgt true args hmem with ⟨cs, _, hmem'⟩
    rcases writeLoop_callback_shape env cs fs true tgt true fs 0 0 0 args hmem' with
      ⟨w, pct, h⟩
    simp only [if_pos rfl] at h
    exact ⟨w, pct, h⟩
  · intro env fs bs tgt args hmem
    rcases flash_image_callback_mem env fs bs tgt false args hmem with ⟨cs, _, hmem'⟩
    rcases writeLoop_callback_shape env cs fs false tgt true fs 0 0 0 args hmem' with
      ⟨w, pct, h⟩
    simp only [Bool.false_eq_true, if_false] at h
    exact ⟨w, pct, h⟩
  · intro env g fs bs tgt ni
    unfold flash_image
    cases hcs : parse_block_size bs with
    | none => simp
    | some cs =>
      rw [unmount_device_callbackRaises]
      simp only []
      by_cases hu : (unmount_device env).1 = false
      · rw [if_pos hu, if_pos hu]
        exact ⟨rfl, rfl⟩
      · rw [if_neg hu, if_neg hu]
        have hopeq : ({ env with callbackRaises := g } : FlashEnv).openResult =
            env.openResult := rfl
        rw [hopeq]
        cases hop : env.openResult
        · -- openOk
          rcases writeLoop_callback_raise_immaterial env g cs fs ni tgt true fs 0 0 0
            with ⟨h1, h2⟩
          rw [hop] at h1 h2
          rw [h1]
          cases hw : (writeLoop env cs fs ni tgt true fs 0 0 0).1 <;>
            refine ⟨rfl, ?_⟩ <;>
            simp [List.filter_append, h2, notCbRaised]
        · exact ⟨rfl, rfl⟩
        · exact ⟨rfl, rfl⟩
  · intro env fs bs tgt ni hok
    unfold flash_image
    cases hcs : parse_block_size bs with
    | none => simp
    | some cs =>
      simp only []
      by_cases hu : (unmount_device env).1 = false
      · rw [if_pos hu]
        exact ((unmount_device_no_cb_write env).1).trans
          ((unmount_device_no_cb_write env).2).symm
      · rw [if_neg hu]
        cases hop : env.openResult
        · -- openOk
          have hcount := writeLoop_cb_per_write env cs fs ni tgt fs 0 0 0 hok
          cases hw : (writeLoop env cs fs ni tgt true fs 0 0 0).1 <;>
            simp [List.countP_append, (unmount_device_no_cb_write env).1,
              (unmount_device_no_cb_write env).2, isCbEv, isWriteEv, hcount]
        · simp [List.countP_append, (unmount_device_no_cb_write env).1,
            (unmount_device_no_cb_write env).2, isCbEv, isWriteEv]
        · simp [List.countP_append, (unmount_device_no_cb_write env).1,
            (unmount_device_no_cb_write env).2, isCbEv, isWriteEv]

/-- Witness for [flash_progress_callback_contract]: with every write
succeeding, the all-ok environment produces one callback invocation per
chunk write. -/
theorem flash_progress_callback_contract_witness :
    (flash_image envAllOk 4 "4M".toList true true "/dev/sda".toList).2.countP isCbEv =
      (flash_image envAllOk 4 "4M".toList true true "/dev/sda".toList).2.countP
        isWriteEv :=
  flash_progress_callback_contract.2.2.2 envAllOk 4 "4M".toList "/dev/sda".toList
    true (fun _ => rfl)

/-! ### Association-map lemmas -/

theorem keysA_updateA {α : Type} (m : List (Str × α)) (k : Str) (f : α → α) :
    keysA (updateA m k f) = keysA m := by
  induction m with
  | nil => rfl
  | cons e t ih =>
    rcases e with ⟨k', v⟩
    simp only [updateA]
    split <;> simp_all [keysA]

theorem keysA_setA {α : Type} (m : List (Str × α)) (k : Str) (v : α) :
    keysA (setA m k v) = if memA m k then keysA m else keysA m ++ [k] := by
  induction m with
  | nil => simp [setA, keysA, memA, lookupA]
  | cons e t ih =>
    rcases e with ⟨k', v'⟩
    simp only [setA, memA, lookupA]
    by_cases h : k' = k
    · simp [h, keysA]
    · simp only [if_neg h, keysA, List.map_cons]
      rw [show (lookupA t k).isSome = memA t k from rfl]
      split <;> simp_all [keysA, memA]

theorem lookupA_setA_self {α : Type} (m : List (Str × α)) (k : Str) (v : α) :
    lookupA (setA m k v) k = some v := by
  induction m with
  | nil => simp [setA, lookupA]
  | cons e t ih =>
    rcases e with ⟨k', v'⟩
    simp only [setA]
    by_cases h : k' = k
    · simp [h, lookupA]
    · simp [lookupA, h, ih]

theorem lookupA_updateA_self {α : Type} (m : List (Str × α)) (k : Str) (f : α → α) :
    lookupA (updateA m k f) k = (lookupA m k).map f := by
  induction m with
  | nil => simp [updateA, lookupA]
  | cons e t ih =>
    rcases e with ⟨k', v'⟩
    simp only [updateA]
    by_cases h : k' = k
    · simp [h, lookupA]
    · simp [lookupA, h, ih]

theorem mem_keysA_of_lookupA {α : Type} (m : List (Str × α)) (k : Str) (v : α)
    (h : lookupA m k = some v) : k ∈ keysA m := by
  induction m with
  | nil => exact absurd h (by simp [lookupA])
  | cons e t ih =>
    rcases e with ⟨k', v'⟩
    simp only [lookupA] at h
    simp only [keysA, List.map_cons]
    by_cases h2 : k' = k
    · subst h2
      exact List.mem_cons_self _ _
    · simp only [if_neg h2] at h
      exact List.mem_cons_of_mem _ (ih h)

theorem lookupA_popA_self {α : Type} (m : List (Str × α)) (k : Str)
    (hnd : (keysA m).Nodup) : lookupA (popA m k) k = none := by
  induction m with
  | nil => rfl
  | cons e t ih =>
    rcases e with ⟨k', v'⟩
    simp only [keysA, List.map_cons, List.nodup_cons] at hnd
    simp only [popA]
    by_cases h : k' = k
    · rw [if_pos h]
      subst h
      cases hlk : lookupA t k' with
      | none => rfl
      | some v =>
        exact absurd (mem_keysA_of_lookupA t k' v hlk) hnd.1
    · rw [if_neg h]
      simp only [lookupA]
      rw [if_neg h]
      exact ih hnd.2

/-! ### C1: background tasks and the port-state key set -/

/-- C1 counterexample: started after its port's entry was purged, the
background flash task re-inserts the key — here it inserts `1-2.1` into
the empty map. -/
theorem flash_device_init_inserts_key :
    keysA (flash_device_init [] "1-2.1".toList 0) = ["1-2.1".toList] ∧
    keysA ([] : PortStates) = [] := by
  exact ⟨rfl, rfl⟩

/-- C1 (amended): no background task ever removes a key; the boot task
and the flash task's progress/completion updates only mutate existing
entries; but the flash task's start-up block re-inserts the port key
whenever it is absent. -/
theorem background_task_key_discipline :
    (∀ (m : PortStates) (p : Str) (now : ℚ),
      keysA (flash_device_init m p now) =
        (if memA m p then keysA m else keysA m ++ [p])) ∧
    (∀ (m : PortStates) (p : Str) (b t : Nat) (pct : ℚ),
      keysA (flash_progress_update m p b t pct) = keysA m) ∧
    (∀ (m : PortStates) (p : Str) (s : Bool) (e : Str),
      keysA (flash_finish m p s e) = keysA m) ∧
    (∀ (m : PortStates) (p : Str) (s : Bool) (e : Str),
      keysA (boot_finish m p s e) = keysA m) := by
  refine ⟨?_, ?_, ?_, ?_⟩
  · intro m p now
    unfold flash_device_init
    by_cases h : memA m p
    · simp [h, keysA_updateA]
    · simp [h, keysA_updateA, keysA_setA]
  · intro m p b t pct
    unfold flash_progress_update
    split <;> simp [keysA_updateA]
  · intro m p s e
    unfold flash_finish
    split <;> split <;> simp [keysA_updateA]
  · intro m p s e
    unfold boot_finish
    split <;> [skip; rfl]
    split <;> simp [keysA_updateA]

/-! ### C5: the NOT_CONNECTED → UNKNOWN condition -/

/-- C5 counterexample: a port reporting only a serial number (an identity
field) with no block devices stays NOT_CONNECTED — no entry is created,
contradicting the claimed transition to UNKNOWN on any identity field. -/
theorem serial_only_stays_not_connected :
    (stepPort [] "1-2.1".toList serialOnlyInfo 0 3 true).states = [] ∧
    serialOnlyInfo.serial ≠ none := by
  exact ⟨rfl, by decide⟩

/-- C5 (amended): from NOT_CONNECTED with no block devices and not
boot-eligible, the port transitions to UNKNOWN exactly when the vendor id
or the product id is present; the other identity fields (manufacturer,
product, serial) do not trigger the transition. -/
theorem not_connected_to_unknown_iff (m : PortStates) (p : Str)
    (info : PortInfo) (now stable_delay : ℚ) (img : Bool)
    (hfresh : lookupA m p = none)
    (hnb : info.block_devices = [])
    (hnr : is_rpiboot_device info = false) :
    (info.vendor_id ≠ none ∨ info.product_id ≠ none →
      lookupA (stepPort m p info now stable_delay img).states p =
        some { state := PState.unknown, block_devices := [],
               detected_time := now, progress := [], error := none }) ∧
    (info.vendor_id = none ∧ info.product_id = none →
      (stepPort m p info now stable_delay img).states = m) := by
  constructor
  · intro hid
    simp only [stepPort, hfresh, hnb, hnr]
    simp [hid, lookupA_setA_self]
  · intro ⟨h1, h2⟩
    simp only [stepPort, hfresh, hnb, hnr]
    simp [h1, h2]

theorem not_connected_to_unknown_iff_witness :
    lookupA (stepPort [] "1-2.1".toList vendorOnlyInfo 0 3 true).states
        "1-2.1".toList =
      some { state := PState.unknown, block_devices := [],
             detected_time := 0, progress := [], error := none } :=
  (not_connected_to_unknown_iff [] "1-2.1".toList vendorOnlyInfo 0 3 true
    rfl rfl rfl).1 (Or.inl (by decide))

/-! ### C4: purge condition for COMPLETED/FAILED ports -/

/-- C4 counterexample: a COMPLETED port whose enumerated info still
reports identity fields but no block devices is purged anyway — the code
checks only the block-device list, not the identity fields. -/
theorem completed_purged_despite_identity :
    (stepPort [("1-2.1".toList, completedEntry)] "1-2.1".toList
        vendorNoBlocksInfo 0 3 true).states = [] ∧
    vendorNoBlocksInfo.vendor_id ≠ none := by
  exact ⟨rfl, by decide⟩

/-- C4 (amended): a COMPLETED or FAILED port is purged on a poll tick
exactly when its enumerated block-device list is empty, regardless of any
identity fields; while block devices are still reported the entry is kept
(with the refreshed snapshot). -/
theorem terminal_purge_iff_no_blocks (m : PortStates) (p : Str) (s : PortState)
    (info : PortInfo) (now stable_delay : ℚ) (img : Bool)
    (hs : lookupA m p = some s)
    (hterm : s.state = PState.completed ∨ s.state = PState.failed)
    (hnd : (keysA m).Nodup) :
    (info.block_devices = [] →
      lookupA (stepPort m p info now stable_delay img).states p = none) ∧
    (info.block_devices ≠ [] →
      lookupA (stepPort m p info now stable_delay img).states p =
        some { s with block_devices := info.block_devices }) := by
  constructor
  · intro hb
    rcases hterm with h | h <;>
    · simp only [stepPort, hs, h, hb]
      exact lookupA_popA_self _ _ (by rw [keysA_updateA]; exact hnd)
  · intro hb
    rcases hterm with h | h <;>
    · simp only [stepPort, hs, h]
      rw [if_neg hb]
      rw [lookupA_updateA_self, hs, Option.map_some']
      rw [h]

/-- Witness for [terminal_purge_iff_no_blocks]: the completed entry above
is removed once the block devices are gone. -/
theorem terminal_purge_iff_no_blocks_witness :
    lookupA (stepPort [("1-2.1".toList, completedEntry)] "1-2.1".toList
        vendorNoBlocksInfo 0 3 true).states "1-2.1".toList = none :=
  (terminal_purge_iff_no_blocks [("1-2.1".toList, completedEntry)]
    "1-2.1".toList completedEntry vendorNoBlocksInfo 0 3 true rfl
    (Or.inl rfl) (by decide)).1 rfl

/-! ### C2: unmappable image at startup -/

/-- C2 counterexample: with the image unmappable but the configuration
valid and the monitor port resolvable, `run_daemon` does not abort — it
warns, continues without a mapped image, and monitoring runs (final exit
code 0). -/
theorem mmap_failure_monitoring_still_runs :
    run_daemon_startup cexStartupEnv =
      { exitCode := 0, monitoringRan := true, imageAtStart := false } ∧
    cexStartupEnv.mmapOk = false := by
  exact ⟨rfl, rfl⟩

/-- C2 (amended): if the image cannot be memory-mapped at startup, the
daemon logs a warning and continues with no mapped image: monitoring
still starts (exit path 0), and a port that later reaches the dispatch
point is marked FAILED with error `Image not available` instead of being
flashed. -/
theorem mmap_failure_degrades_gracefully (env : StartupEnv) (mp : Str)
    (hc : env.configOk = true) (hm : env.mmapOk = false)
    (hp : find_monitor_port env.ports env.configPort = some mp) :
    run_daemon_startup env =
      { exitCode := 0, monitoringRan := true, imageAtStart := false } ∧
    (∀ (m : PortStates) (p : Str) (s : PortState) (info : PortInfo)
      (now stable_delay : ℚ),
      lookupA m p = some s → s.state = PState.waiting →
      info.block_devices ≠ [] → now - s.detected_time ≥ stable_delay →
      lookupA (stepPort m p info now stable_delay false).states p =
        some { s with block_devices := info.block_devices,
                      state := PState.failed,
                      error := some "Image not available".toList }) := by
  constructor
  · unfold run_daemon_startup
    rw [hc, hp, hm]
    rfl
  · intro m p s info now stable_delay hs hw hb hq
    simp only [stepPort, hs, hw]
    simp [hb, hq, lookupA_updateA_self, hs]

/-- Witness for [mmap_failure_degrades_gracefully] at the concrete
environment above. -/
theorem mmap_failure_degrades_gracefully_witness :
    run_daemon_startup cexStartupEnv =
      { exitCode := 0, monitoringRan := true, imageAtStart := false } :=
  (mmap_failure_degrades_gracefully cexStartupEnv "1-1".toList rfl rfl rfl).1

/-! ### C3: single dispatch per detection epoch -/

/-- From FLASHING, poll ticks with devices still present never dispatch
again and leave the port FLASHING. -/
theorem run_from_flashing (delay : ℚ) (img : Bool) (p : Str) (m : PortStates)
    (s : PortState) (inputs : List (ℚ × PortInfo))
    (hs : lookupA m p = some s) (hst : s.state = PState.flashing)
    (hblocks : ∀ e ∈ inputs, e.2.block_devices ≠ []) :
    (runPort delay img p m inputs).2 = List.replicate inputs.length [] ∧
    ∃ s', lookupA (runPort delay img p m inputs).1 p = some s' ∧
      s'.state = PState.flashing := by
  induction inputs generalizing m s with
  | nil => exact ⟨rfl, s, hs, hst⟩
  | cons e rest ih =>
    rcases e with ⟨now, info⟩
    have hstep : stepPort m p info now delay img =
        { states := updateA m p (fun s => { s with block_devices := info.block_devices }),
          dispatched := [], bootStarted := false } := by
      simp only [stepPort, hs, hst]
    simp only [runPort, hstep]
    have hs' : lookupA (updateA m p
        (fun s => { s with block_devices := info.block_devices })) p =
        some { s with block_devices := info.block_devices } := by
      rw [lookupA_updateA_self, hs, Option.map_some']
    rcases ih _ _ hs' hst (fun e he => hblocks e (List.mem_cons_of_mem _ he)) with
      ⟨h1, s', h2, h3⟩
    exact ⟨by simp [h1, List.replicate_succ], s', h2, h3⟩

/-- From WAITING with detection time `d`, the poll loop dispatches at the
first tick whose timestamp satisfies the stable delay — exactly once, one
task per block device of that tick — and the port is FLASHING from then
on. -/
theorem run_from_waiting (delay : ℚ) (p : Str) (m : PortStates) (s : PortState)
    (inputs : List (ℚ × PortInfo)) (j : Nat)
    (hs : lookupA m p = some s) (hst : s.state = PState.waiting)
    (hblocks : ∀ e ∈ inputs, e.2.block_devices ≠ [])
    (hj : j < inputs.length)
    (hqual : (inputs.getD j dfltTick).1 - s.detected_time ≥ delay)
    (hmin : ∀ i, i < j → ¬((inputs.getD i dfltTick).1 - s.detected_time ≥ delay)) :
    (runPort delay true p m inputs).2 =
      List.replicate j [] ++ [(inputs.getD j dfltTick).2.block_devices] ++
        List.replicate (inputs.length - j - 1) [] ∧
    ∃ s', lookupA (runPort delay true p m inputs).1 p = some s' ∧
      s'.state = PState.flashing := by
  induction inputs generalizing m s j with
  | nil => exact absurd hj (by simp)
  | cons e rest ih =>
    rcases e with ⟨now, info⟩
    have hbinfo : info.block_devices ≠ [] := hblocks _ (List.mem_cons_self _ _)
    cases j with
    | zero =>
      have hq : now - s.detected_time ≥ delay := by
        simpa [List.getD] using hqual
      have hstep : stepPort m p info now delay true =
          { states := updateA (updateA m p
              (fun s => { s with block_devices := info.block_devices })) p
              (fun s => { s with state := PState.flashing, progress := initProgress now }),
            dispatched := info.block_devices, bootStarted := false } := by
        simp only [stepPort, hs, hst]
        simp [hbinfo, hq]
      simp only [runPort, hstep]
      have hs' : lookupA (updateA (updateA m p
          (fun s => { s with block_devices := info.block_devices })) p
          (fun s => { s with state := PState.flashing, progress := initProgress now })) p =
          some { s with block_devices := info.block_devices,
                        state := PState.flashing, progress := initProgress now } := by
        rw [lookupA_updateA_self, lookupA_updateA_self, hs, Option.map_some',
          Option.map_some']
      rcases run_from_flashing delay true p _ _ rest hs' rfl
        (fun e he => hblocks e (List.mem_cons_of_mem _ he)) with ⟨h1, s', h2, h3⟩
      refine ⟨?_, s', h2, h3⟩
      simp [h1, List.getD]
    | succ j' =>
      have hnq : ¬(now - s.detected_time ≥ delay) := by
        have := hmin 0 (Nat.succ_pos j')
        simpa [List.getD] using this
      have hstep : stepPort m p info now delay true =
          { states := updateA m p
              (fun s => { s with block_devices := info.block_devices }),
            dispatched := [], bootStarted := false } := by
        simp only [stepPort, hs, hst]
        simp [hbinfo, hnq]
      simp only [runPort, hstep]
      have hs' : lookupA (updateA m p
          (fun s => { s with block_devices := info.block_devices })) p =
          some { s with block_devices := info.block_devices } := by
        rw [lookupA_updateA_self, hs, Option.map_some']
      rcases ih _ _ j' hs' hst (fun e he => hblocks e (List.mem_cons_of_mem _ he))
        (by simpa using hj)
        (by simpa [List.getD] using hqual)
        (fun i hi => by simpa [List.getD] using hmin (i + 1) (by omega)) with
        ⟨h1, s', h2, h3⟩
      refine ⟨?_, s', h2, h3⟩
      simp [h1, List.replicate_succ, List.getD]

theorem no_dispatch_without_image :
    (runPort 0 false "1-2.1".toList []
        [(0, blocksOnlyInfo), (1, blocksOnlyInfo)]).2 = [[], []] ∧
    ((lookupA (runPort 0 false "1-2.1".toList []
        [(0, blocksOnlyInfo), (1, blocksOnlyInfo)]).1 "1-2.1".toList).map
      PortState.state) = some PState.failed := by
  constructor <;>
    norm_num [runPort, stepPort, lookupA, setA, updateA, blocksOnlyInfo]

/-- C3 (amended): provided the memory-mapped image is available, a fresh
detection epoch (port not in the map) whose block devices stay present
dispatches exactly once — at the first tick past the stable delay, one
flash task per block device of that tick — and never again within the
epoch (the port is FLASHING afterwards). Without the image the port is
instead marked FAILED with no dispatch. -/
theorem waiting_to_flashing_single_dispatch (delay : ℚ) (p : Str)
    (m : PortStates) (t0 : ℚ) (i0 : PortInfo) (rest : List (ℚ × PortInfo))
    (j : Nat)
    (hfresh : lookupA m p = none)
    (hb0 : i0.block_devices ≠ [])
    (hblocks : ∀ e ∈ rest, e.2.block_devices ≠ [])
    (hj : j < rest.length)
    (hqual : (rest.getD j dfltTick).1 - t0 ≥ delay)
    (hmin : ∀ i, i < j → ¬((rest.getD i dfltTick).1 - t0 ≥ delay)) :
    (runPort delay true p m ((t0, i0) :: rest)).2 =
      [] :: (List.replicate j [] ++ [(rest.getD j dfltTick).2.block_devices] ++
        List.replicate (rest.length - j - 1) []) ∧
    ∃ s', lookupA (runPort delay true p m ((t0, i0) :: rest)).1 p = some s' ∧
      s'.state = PState.flashing := by
  have hstep : stepPort m p i0 t0 delay true =
      { states := setA m p
          { state := PState.waiting, block_devices := i0.block_devices,
            detected_time := t0, progress := [], error := none },
        dispatched := [], bootStarted := false } := by
    simp only [stepPort, hfresh]
    simp [hb0]
  simp only [runPort, hstep]
  have hs' : lookupA (setA m p
      { state := PState.waiting, block_devices := i0.block_devices,
        detected_time := t0, progress := [], error := none }) p =
      some { state := PState.waiting, block_devices := i0.block_devices,
             detected_time := t0, progress := [], error := none } :=
    lookupA_setA_self m p _
  rcases run_from_waiting delay p _ _ rest j hs' rfl hblocks hj hqual hmin with
    ⟨h1, s', h2, h3⟩
  exact ⟨by simp [h1], s', h2, h3⟩

/-- Witness for [waiting_to_flashing_single_dispatch]: a two-tick epoch
with stable delay 1 dispatches exactly at the second tick. -/
theorem waiting_to_flashing_single_dispatch_witness :
    (runPort 1 true "1-2.1".toList []
        [((0 : ℚ), blocksOnlyInfo), ((1 : ℚ), blocksOnlyInfo)]).2 =
      [] :: (List.replicate 0 [] ++
        [(([((1 : ℚ), blocksOnlyInfo)].getD 0 dfltTick)).2.block_devices] ++
        List.replicate ([((1 : ℚ), blocksOnlyInfo)].length - 0 - 1) []) ∧
    ∃ s', lookupA (runPort 1 true "1-2.1".toList []
        [((0 : ℚ), blocksOnlyInfo), ((1 : ℚ), blocksOnlyInfo)]).1
        "1-2.1".toList = some s' ∧ s'.state = PState.flashing :=
  waiting_to_flashing_single_dispatch 1 "1-2.1".toList [] 0 blocksOnlyInfo
    [((1 : ℚ), blocksOnlyInfo)] 0 rfl (by simp [blocksOnlyInfo])
    (by intro e he
        simp only [List.mem_singleton] at he
        subst he
        simp [blocksOnlyInfo])
    (by norm_num)
    (by norm_num [List.getD])
    (fun i hi => absurd hi (by omega))

/-! ### String lemmas for the unification proofs -/

theorem takeUntil_append_dropUntil (c : Char) (s : Str) :
    takeUntil c s ++ dropUntil c s = s := by
  induction s with
  | nil => rfl
  | cons a t ih =>
    simp only [takeUntil, dropUntil]
    by_cases h : a = c <;> simp [h, ih]

theorem not_mem_takeUntil (c : Char) (s : Str) : c ∉ takeUntil c s := by
  induction s with
  | nil => simp [takeUntil]
  | cons a t ih =>
    by_cases h : a = c
    · simp [takeUntil, h]
    · simp only [takeUntil, if_neg h, List.mem_cons]
      push_neg
      exact ⟨fun he => h he.symm, ih⟩

theorem takeUntil_of_not_mem {c : Char} {s : Str} (h : c ∉ s) :
    takeUntil c s = s := by
  induction s with
  | nil => rfl
  | cons a t ih =>
    simp only [takeUntil]
    rw [if_neg, ih (fun ht => h (List.mem_cons_of_mem _ ht))]
    intro he
    exact h (he ▸ List.mem_cons_self _ _)

theorem dropUntil_of_mem {c : Char} {s : Str} (h : c ∈ s) :
    ∃ t, dropUntil c s = c :: t := by
  induction s with
  | nil => simp at h
  | cons a t ih =>
    simp only [dropUntil]
    by_cases ha : a = c
    · subst ha; exact ⟨t, if_pos rfl⟩
    · rw [if_neg ha]
      rcases List.mem_cons.mp h with he | ht
      · exact absurd he.symm ha
      · exact ih ht

theorem takeUntil_append_of_not_mem {c : Char} {a : Str} (b : Str) (h : c ∉ a) :
    takeUntil c (a ++ b) = a ++ takeUntil c b := by
  induction a with
  | nil => rfl
  | cons x t ih =>
    simp only [List.cons_append, takeUntil, List.append_eq]
    rw [if_neg, ih (fun ht => h (List.mem_cons_of_mem _ ht))]
    intro he
    exact h (he ▸ List.mem_cons_self _ _)

theorem takeUntil_append_of_mem {c : Char} {a : Str} (b : Str) (h : c ∈ a) :
    takeUntil c (a ++ b) = takeUntil c a := by
  induction a with
  | nil => simp at h
  | cons x t ih =>
    simp only [List.cons_append, takeUntil, List.append_eq]
    by_cases hx : x = c
    · simp [hx]
    · rw [if_neg hx, if_neg hx]
      rcases List.mem_cons.mp h with he | ht
      · exact absurd he.symm hx
      · rw [ih ht]

/-- Splitting a string at the first occurrence of a present character. -/
theorem split_at_mem {c : Char} {s : Str} (h : c ∈ s) :
    ∃ t, s = takeUntil c s ++ c :: t ∧ c ∉ takeUntil c s := by
  rcases dropUntil_of_mem h with ⟨t, ht⟩
  refine ⟨t, ?_, not_mem_takeUntil c s⟩
  conv_lhs => rw [← takeUntil_append_dropUntil c s]
  rw [ht]

/-! ### Decimal representation lemmas -/

theorem isDigit_ofNat_add (d : Nat) (h : d < 10) :
    (Char.ofNat (48 + d)).isDigit = true := by
  interval_cases d <;> decide

theorem digitVal_ofNat_add (d : Nat) (h : d < 10) :
    digitVal (Char.ofNat (48 + d)) = d := by
  unfold digitVal
  interval_cases d <;> decide

theorem digit_toNat_bounds (c : Char) (h : c.isDigit = true) :
    48 ≤ c.toNat ∧ c.toNat ≤ 57 := by
  simp [Char.isDigit] at h
  exact ⟨h.1, h.2⟩

theorem digitVal_lt_ten (c : Char) (h : c.isDigit = true) : digitVal c < 10 := by
  rcases digit_toNat_bounds c h with ⟨h1, h2⟩
  unfold digitVal
  omega

theorem ofNat_digitVal (c : Char) (h : c.isDigit = true) :
    Char.ofNat (48 + digitVal c) = c := by
  rcases digit_toNat_bounds c h with ⟨h1, _⟩
  unfold digitVal
  rw [show 48 + (c.toNat - 48) = c.toNat by omega]
  exact Char.ofNat_toNat c

theorem natRepr_ne_nil (n : Nat) : natRepr n ≠ [] := by
  rw [natRepr]
  split <;> simp

theorem natRepr_all_digits (n : Nat) : ∀ ch ∈ natRepr n, ch.isDigit = true := by
  induction n using Nat.strong_induction_on with
  | _ n ih =>
    rw [natRepr]
    split
    · intro ch hch
      simp only [List.mem_singleton] at hch
      subst hch
      exact isDigit_ofNat_add n (by omega)
    · intro ch hch
      rcases List.mem_append.mp hch with h | h
      · exact ih (n / 10) (Nat.div_lt_self (by omega) (by norm_num)) ch h
      · simp only [List.mem_singleton] at h
        subst h
        exact isDigit_ofNat_add (n % 10) (Nat.mod_lt _ (by norm_num))

theorem digit_ne_dash (c : Char) (h : c.isDigit = true) : c ≠ '-' := by
  intro he; subst he; simp at h

theorem digit_ne_dot (c : Char) (h : c.isDigit = true) : c ≠ '.' := by
  intro he; subst he; simp at h

theorem digit_ne_plus (c : Char) (h : c.isDigit = true) : c ≠ '+' := by
  intro he; subst he; simp at h

theorem dash_not_mem_natRepr (n : Nat) : '-' ∉ natRepr n := by
  intro h
  exact digit_ne_dash '-' (natRepr_all_digits n '-' h) rfl

theorem dot_not_mem_natRepr (n : Nat) : '.' ∉ natRepr n := by
  intro h
  exact digit_ne_dot '.' (natRepr_all_digits n '.' h) rfl

theorem head_natRepr_ne_zero (n : Nat) (hn : 0 < n) (c : Char) (t : Str)
    (h : natRepr n = c :: t) : c ≠ '0' := by
  induction n using Nat.strong_induction_on generalizing c t with
  | _ n ih =>
    rw [natRepr] at h
    split at h
    · simp only [List.cons.injEq] at h
      obtain ⟨h1, _⟩ := h
      subst h1
      rename_i hlt
      interval_cases n <;> decide
    · rename_i hge
      rcases hh : natRepr (n / 10) with _ | ⟨c', t'⟩
      · exact absurd hh (natRepr_ne_nil _)
      · rw [hh] at h
        simp only [List.cons_append, List.cons.injEq] at h
        have := ih (n / 10) (Nat.div_lt_self (by omega) (by norm_num))
          (by omega : 0 < n / 10) c' t' hh
        exact h.1 ▸ this

theorem digitsVal_append_singleton (a : Str) (c : Char) :
    digitsVal (a ++ [c]) = 10 * digitsVal a + digitVal c := by
  unfold digitsVal
  rw [List.foldl_append]
  rfl

theorem digitsVal_natRepr (n : Nat) : digitsVal (natRepr n) = n := by
  induction n using Nat.strong_induction_on with
  | _ n ih =>
    rw [natRepr]
    split
    · rename_i hlt
      show digitsVal [Char.ofNat (48 + n)] = n
      unfold digitsVal
      simp only [List.foldl_cons, List.foldl_nil]
      rw [Nat.mul_zero, Nat.zero_add]
      exact digitVal_ofNat_add n hlt
    · rename_i hge
      rw [digitsVal_append_singleton,
        ih (n / 10) (Nat.div_lt_self (by omega) (by norm_num)),
        digitVal_ofNat_add (n % 10) (Nat.mod_lt _ (by norm_num))]
      omega

theorem digitsVal_zeros_append (z r : Str) (hz : ∀ c ∈ z, c = '0') :
    digitsVal (z ++ r) = digitsVal r := by
  induction z with
  | nil => rfl
  | cons a t ih =>
    have ha : a = '0' := hz a (List.mem_cons_self _ _)
    subst ha
    unfold digitsVal at ih ⊢
    simp only [List.cons_append, List.foldl_cons]
    have : 10 * 0 + digitVal '0' = 0 := by decide
    rw [this]
    exact ih (fun c hc => hz c (List.mem_cons_of_mem _ hc))

theorem foldl_digits_ge (acc : Nat) (t : Str) :
    acc ≤ t.foldl (fun a c => 10 * a + digitVal c) acc := by
  induction t generalizing acc with
  | nil => exact Nat.le_refl _
  | cons c t ih =>
    simp only [List.foldl_cons]
    exact le_trans (by omega) (ih (10 * acc + digitVal c))

theorem digitsVal_pos_of_head_ne_zero (c : Char) (t : Str)
    (hd : c.isDigit = true) (hc : c ≠ '0') : 0 < digitsVal (c :: t) := by
  unfold digitsVal
  simp only [List.foldl_cons]
  have h1 : 0 < digitVal c := by
    rcases digit_toNat_bounds c hd with ⟨hb1, hb2⟩
    unfold digitVal
    rcases Nat.lt_or_ge 48 c.toNat with h | h
    · omega
    · exfalso
      apply hc
      have : c.toNat = 48 := by omega
      have := congrArg Char.ofNat this
      rwa [Char.ofNat_toNat] at this
  calc 0 < 10 * 0 + digitVal c := by omega
    _ ≤ _ := foldl_digits_ge _ t

/-- Round trip: a digit string without a leading zero is the decimal
representation of its value. -/
theorem natRepr_digitsVal (c : Str) (hne : c ≠ [])
    (hd : ∀ ch ∈ c, ch.isDigit = true)
    (hh : ∀ t, c = '0' :: t → t = []) : natRepr (digitsVal c) = c := by
  induction c using List.reverseRecOn with
  | nil => exact absurd rfl hne
  | append_singleton ds last ih =>
    cases hds : ds with
    | nil =>
      subst hds
      have hdig : last.isDigit = true := hd last (by simp)
      show natRepr (digitsVal [last]) = [last]
      have hval : digitsVal [last] = digitVal last := by
        unfold digitsVal
        simp only [List.foldl_cons, List.foldl_nil]
        omega
      rw [hval, natRepr, dif_pos (digitVal_lt_ten last hdig),
        ofNat_digitVal last hdig]
    | cons d0 dt =>
      subst hds
      have hd0 : d0 ≠ '0' := by
        intro he
        subst he
        have := hh (dt ++ [last]) (by simp)
        simp at this
      have hdpos : 0 < digitsVal (d0 :: dt) :=
        digitsVal_pos_of_head_ne_zero d0 dt (hd d0 (by simp)) hd0
      rw [digitsVal_append_singleton]
      have hlast : last.isDigit = true := hd last (by simp)
      have hlt : digitVal last < 10 := digitVal_lt_ten last hlast
      rw [natRepr, dif_neg (by omega)]
      have hdiv : (10 * digitsVal (d0 :: dt) + digitVal last) / 10 =
          digitsVal (d0 :: dt) := by omega
      have hmod : (10 * digitsVal (d0 :: dt) + digitVal last) % 10 =
          digitVal last := by omega
      rw [hdiv, hmod, ofNat_digitVal last hlast,
        ih (by simp) (fun ch hch => hd ch (List.mem_append_left _ hch))
          (fun t ht => by simp only [List.cons.injEq] at ht; exact absurd ht.1 hd0)]

/-- Every nonempty digit string is a block of leading zeros followed by
the canonical representation of its value. -/
theorem digits_decompose (c : Str) (hne : c ≠ [])
    (hd : ∀ ch ∈ c, ch.isDigit = true) :
    ∃ z, (∀ ch ∈ z, ch = '0') ∧ c = z ++ natRepr (digitsVal c) := by
  induction c with
  | nil => exact absurd rfl hne
  | cons a t ih =>
    by_cases ha : a = '0'
    · subst ha
      cases t with
      | nil =>
        refine ⟨[], by simp, ?_⟩
        have h0 : digitsVal ['0'] = 0 := by decide
        rw [h0, natRepr, dif_pos (by norm_num)]
        decide
      | cons b t' =>
        have hval : digitsVal ('0' :: b :: t') = digitsVal (b :: t') := by
          have := digitsVal_zeros_append ['0'] (b :: t') (by simp)
          simpa using this
        rcases ih (by simp) (fun ch hch => hd ch (List.mem_cons_of_mem _ hch)) with
          ⟨z, hz, hdec⟩
        refine ⟨'0' :: z, ?_, ?_⟩
        · intro ch hch
          rcases List.mem_cons.mp hch with h | h
          · exact h
          · exact hz ch h
        · rw [hval, List.cons_append, ← hdec]
    · refine ⟨[], by simp, ?_⟩
      rw [List.nil_append]
      exact (natRepr_digitsVal (a :: t) (by simp) hd
        (fun t' ht' => by simp only [List.cons.injEq] at ht'; exact absurd ht'.1 ha)).symm

theorem parsePyNat_some_iff (s : Str) (b : Nat) :
    parsePyNat s = some b ↔
      (stripPlus s ≠ [] ∧ (∀ ch ∈ stripPlus s, ch.isDigit = true) ∧
        digitsVal (stripPlus s) = b) := by
  unfold parsePyNat
  dsimp only
  split
  · rename_i h
    rw [List.all_eq_true] at h
    simp only [Option.some.injEq]
    constructor
    · intro hv
      exact ⟨h.1, fun ch hch => h.2 ch hch, hv⟩
    · intro hv
      exact hv.2.2
  · rename_i h
    rw [Decidable.not_and_iff_or_not, List.all_eq_true] at h
    constructor
    · intro hv
      cases hv
    · intro hv
      rcases h with h | h
      · simp at h
        exact absurd h hv.1
      · exact absurd (fun ch hch => hv.2.1 ch hch) h

theorem stripPlus_cases (s : Str) : s = stripPlus s ∨ s = '+' :: stripPlus s := by
  unfold stripPlus
  split
  · exact Or.inr rfl
  · exact Or.inl rfl

theorem stripPlus_eq_self (s : Str) (h : ∀ t, s ≠ '+' :: t) : stripPlus s = s := by
  rcases stripPlus_cases s with hc | hc
  · exact hc.symm
  · exact absurd hc (h _)

/-- Characters of a parsable bus component are digits or the sign. -/
theorem parsePyNat_chars (s : Str) (b : Nat) (h : parsePyNat s = some b) :
    ∀ ch ∈ s, ch.isDigit = true ∨ ch = '+' := by
  rw [parsePyNat_some_iff] at h
  intro ch hch
  rcases stripPlus_cases s with hc | hc
  · exact Or.inl (h.2.1 ch (by rwa [← hc]))
  · rw [hc] at hch
    rcases List.mem_cons.mp hch with he | ht
    · exact Or.inr he
    · exact Or.inl (h.2.1 ch ht)

/-- Parsing an optional sign, leading zeros, and a canonical decimal
representation yields the represented value. -/
theorem parsePyNat_padded (sgn : Bool) (z : Str) (m : Nat)
    (hz : ∀ c ∈ z, c = '0') :
    parsePyNat ((if sgn then ['+'] else []) ++ z ++ natRepr m) = some m := by
  have hcore : stripPlus (z ++ natRepr m) = z ++ natRepr m := by
    apply stripPlus_eq_self
    intro t ht
    cases z with
    | nil =>
      simp only [List.nil_append] at ht
      have : '+' ∈ natRepr m := ht ▸ List.mem_cons_self _ _
      exact digit_ne_plus '+' (natRepr_all_digits m '+' this) rfl
    | cons c0 ct =>
      have : c0 = '+' := by
        simp only [List.cons_append, List.cons.injEq] at ht
        exact ht.1
      have h0 : c0 = '0' := hz c0 (List.mem_cons_self _ _)
      rw [h0] at this
      cases this
  have hstrip : stripPlus ((if sgn then ['+'] else []) ++ z ++ natRepr m) =
      z ++ natRepr m := by
    cases sgn
    · simpa using hcore
    · simp only [if_pos rfl, List.append_assoc, List.cons_append,
        List.nil_append]
      rfl
  rw [parsePyNat_some_iff, hstrip]
  refine ⟨by simp [natRepr_ne_nil m], ?_, ?_⟩
  · intro ch hch
    rcases List.mem_append.mp hch with h | h
    · rw [hz ch h]; decide
    · exact natRepr_all_digits m ch h
  · rw [digitsVal_zeros_append z _ hz, digitsVal_natRepr]

/-! ### replaceFirst lemmas -/

theorem replaceFirst_of_isPrefix (s pat rep : Str)
    (h : pat <+: s) : replaceFirst s pat rep = rep ++ s.drop pat.length := by
  obtain ⟨t, rfl⟩ := h
  cases pat with
  | nil =>
    cases t with
    | nil => simp [replaceFirst]
    | cons a t' => simp [replaceFirst, List.isPrefixOf]
  | cons p0 pt =>
    have hpre : (p0 :: pt).isPrefixOf ((p0 :: pt) ++ t) = true := by
      rw [List.isPrefixOf_iff_prefix]
      exact List.prefix_append _ _
    simp only [List.cons_append, replaceFirst, List.append_eq]
    rw [← List.cons_append, hpre]
    simp

theorem replaceFirst_not_occurs (s pat rep : Str) (ch : Char)
    (hch : ch ∈ pat) (hs : ch ∉ s) : replaceFirst s pat rep = s := by
  induction s with
  | nil =>
    unfold replaceFirst
    rw [if_neg]
    intro he
    rw [he] at hch
    cases hch
  | cons a t ih =>
    unfold replaceFirst
    rw [if_neg, ih (fun hm => hs (List.mem_cons_of_mem _ hm))]
    intro hpre
    rw [List.isPrefixOf_iff_prefix] at hpre
    exact hs (hpre.subset hch)

theorem mem_replaceFirst_iff (s pat rep : Str) (ch : Char)
    (hp : ch ∉ pat) (hr : ch ∉ rep) :
    ch ∈ replaceFirst s pat rep ↔ ch ∈ s := by
  induction s with
  | nil =>
    unfold replaceFirst
    split <;> simp [hr]
  | cons a t ih =>
    unfold replaceFirst
    split
    · rename_i hpre
      rw [List.isPrefixOf_iff_prefix] at hpre
      obtain ⟨u, hu⟩ := hpre
      have hd : (a :: t).drop pat.length = u := by
        rw [← hu]; exact List.drop_left _ _
      rw [List.mem_append, hd, ← hu, List.mem_append]
      constructor
      · rintro (hc | hc)
        · exact absurd hc hr
        · exact Or.inr hc
      · rintro (hc | hc)
        · exact absurd hc hp
        · exact Or.inr hc
    · simp only [List.mem_cons, ih]

theorem natRepr_zero : natRepr 0 = ['0'] := by
  rw [natRepr, dif_pos (by norm_num)]

/-- The first occurrence of `{b}-` in a string of the form
`sign? zeros {b}- tail` is exactly the displayed one. -/
theorem replaceFirst_padded (u : Str) (hu : ∀ ch ∈ u, ch = '0' ∨ ch = '+')
    (b b' : Nat) (t : Str) :
    replaceFirst (u ++ (natRepr b ++ '-' :: t)) (natRepr b ++ ['-'])
      (natRepr b' ++ ['-']) = u ++ (natRepr b' ++ '-' :: t) := by
  induction u with
  | nil =>
    simp only [List.nil_append]
    have h1 : natRepr b ++ '-' :: t = (natRepr b ++ ['-']) ++ t := by simp
    have h2 : natRepr b' ++ '-' :: t = (natRepr b' ++ ['-']) ++ t := by simp
    rw [h1, h2, replaceFirst_of_isPrefix _ _ _ (List.prefix_append _ _),
      List.drop_left]
  | cons ch u' ih =>
    have hnp : ¬((natRepr b ++ ['-']).isPrefixOf
        (ch :: (u' ++ (natRepr b ++ '-' :: t))) = true) := by
      intro hpre
      rw [List.isPrefixOf_iff_prefix] at hpre
      obtain ⟨w, hw⟩ := hpre
      rcases hnr : natRepr b with _ | ⟨nb, nt⟩
      · exact natRepr_ne_nil b hnr
      rw [hnr] at hw
      simp only [List.cons_append, List.append_assoc, List.nil_append,
        List.cons.injEq] at hw
      obtain ⟨hnb, hrest⟩ := hw
      rcases hu ch (List.mem_cons_self _ _) with h0 | hplus
      · subst h0
        have hb0 : b = 0 := by
          by_contra hb
          exact head_natRepr_ne_zero b (Nat.pos_of_ne_zero hb) nb nt hnr hnb
        subst hb0
        rw [natRepr_zero] at hnr
        injection hnr with e1 e2
        subst e2
        rw [List.nil_append] at hrest
        cases u' with
        | nil =>
          rw [List.nil_append] at hrest
          injection hrest with ha _
          rw [hnb] at ha
          exact absurd ha (by decide)
        | cons c0 u'' =>
          rw [List.cons_append] at hrest
          injection hrest with ha _
          rcases hu c0 (List.mem_cons_of_mem _ (List.mem_cons_self _ _)) with
            h | h
          · rw [h] at ha; exact absurd ha (by decide)
          · rw [h] at ha; exact absurd ha (by decide)
      · have hdig : nb.isDigit = true :=
          natRepr_all_digits b nb (hnr ▸ List.mem_cons_self _ _)
        exact digit_ne_plus nb hdig (hnb.trans hplus)
    simp only [List.cons_append, replaceFirst, List.append_eq]
    rw [if_neg hnp, ih (fun c hc => hu c (List.mem_cons_of_mem _ hc))]

/-- A sign-and-zeros pad contains only `'0'` and `'+'`. -/
theorem pad_chars (sgn : Bool) (z : Str) (hz : ∀ c ∈ z, c = '0') :
    ∀ ch ∈ (if sgn then ['+'] else []) ++ z, ch = '0' ∨ ch = '+' := by
  intro ch hch
  rcases List.mem_append.mp hch with h | h
  · cases sgn
    · simp at h
    · simp at h
      exact Or.inr h
  · exact Or.inl (hz ch h)

theorem dash_not_mem_pad (sgn : Bool) (z : Str) (hz : ∀ c ∈ z, c = '0') :
    '-' ∉ (if sgn then ['+'] else []) ++ z := by
  intro h
  rcases pad_chars sgn z hz '-' h with h | h <;> cases h

theorem dot_not_mem_pad (sgn : Bool) (z : Str) (hz : ∀ c ∈ z, c = '0') :
    '.' ∉ (if sgn then ['+'] else []) ++ z := by
  intro h
  rcases pad_chars sgn z hz '.' h with h | h <;> cases h

theorem advStr_padded (sgn : Bool) (z t : Str) (b : Nat)
    (hz : ∀ c ∈ z, c = '0') :
    advStr (((if sgn then ['+'] else []) ++ z) ++ (natRepr b ++ '-' :: t)) b =
      ((if sgn then ['+'] else []) ++ z) ++ (natRepr (b + 1) ++ '-' :: t) := by
  unfold advStr
  exact replaceFirst_padded _ (pad_chars sgn z hz) b (b + 1) t

/-- Structure of a string whose bus component parses. -/
theorem busOf_some_spec (s : Str) (b : Nat) (h : busOf s = some b) :
    ∃ (sgn : Bool) (z : Str), (∀ c ∈ z, c = '0') ∧
      takeUntil '-' s = ((if sgn then ['+'] else []) ++ z) ++ natRepr b := by
  unfold busOf at h
  rw [parsePyNat_some_iff] at h
  obtain ⟨hne, hdig, hval⟩ := h
  rcases digits_decompose (stripPlus (takeUntil '-' s)) hne hdig with ⟨z, hz, hdec⟩
  rw [hval] at hdec
  rcases stripPlus_cases (takeUntil '-' s) with hc | hc
  · exact ⟨false, z, hz, by rw [hc, hdec]; simp⟩
  · exact ⟨true, z, hz, by rw [hc, hdec]; simp⟩

/-- A parsable string containing a dash decomposes as
`sign? zeros {b}- tail`. -/
theorem shape_of_busOf_dash (s : Str) (b : Nat) (h : busOf s = some b)
    (hd : '-' ∈ s) :
    ∃ (sgn : Bool) (z t : Str), (∀ c ∈ z, c = '0') ∧
      s = ((if sgn then ['+'] else []) ++ z) ++ (natRepr b ++ '-' :: t) := by
  obtain ⟨sgn, z, hz, hc⟩ := busOf_some_spec s b h
  obtain ⟨t, hsplit, -⟩ := split_at_mem hd
  refine ⟨sgn, z, t, hz, ?_⟩
  rw [hsplit, hc]
  simp

/-- The bus number of a `sign? zeros {b}- tail` string is `b`, also with
anything appended. -/
theorem busOf_shape (sgn : Bool) (z t : Str) (b : Nat)
    (hz : ∀ c ∈ z, c = '0') :
    busOf (((if sgn then ['+'] else []) ++ z) ++ (natRepr b ++ '-' :: t)) =
      some b := by
  unfold busOf
  have h1 : takeUntil '-' (((if sgn then ['+'] else []) ++ z) ++
      (natRepr b ++ '-' :: t)) = ((if sgn then ['+'] else []) ++ z) ++
      natRepr b := by
    rw [takeUntil_append_of_not_mem _ (dash_not_mem_pad sgn z hz),
      takeUntil_append_of_not_mem _ (dash_not_mem_natRepr b)]
    simp [takeUntil]
  rw [h1]
  exact parsePyNat_padded sgn z b hz

theorem busOf_append_of_dash (v x : Str) (hd : '-' ∈ v) :
    busOf (v ++ x) = busOf v := by
  unfold busOf
  rw [takeUntil_append_of_mem _ hd]

/-- Full specification of the bus-prefix substitution on a string with a
dash. -/
theorem advStr_spec (s : Str) (b : Nat) (h : busOf s = some b)
    (hd : '-' ∈ s) :
    busOf (advStr s b) = some (b + 1) ∧
    ('.' ∈ advStr s b ↔ '.' ∈ s) ∧
    '-' ∈ advStr s b ∧ advStr s b ≠ [] := by
  obtain ⟨sgn, z, t, hz, hshape⟩ := shape_of_busOf_dash s b h hd
  have hadv : advStr s b = ((if sgn then ['+'] else []) ++ z) ++
      (natRepr (b + 1) ++ '-' :: t) := by
    rw [hshape]; exact advStr_padded sgn z t b hz
  refine ⟨?_, ?_, ?_, ?_⟩
  · rw [hadv]; exact busOf_shape sgn z t (b + 1) hz
  · have key : ∀ n : Nat,
        ('.' ∈ ((if sgn then ['+'] else []) ++ z) ++ (natRepr n ++ '-' :: t)) ↔
          '.' ∈ t := by
      intro n
      constructor
      · intro hm
        rcases List.mem_append.mp hm with h | h
        · exact absurd h (dot_not_mem_pad sgn z hz)
        · rcases List.mem_append.mp h with h | h
          · exact absurd h (dot_not_mem_natRepr n)
          · rcases List.mem_cons.mp h with h | h
            · cases h
            · exact h
      · intro hm
        exact List.mem_append.mpr (Or.inr (List.mem_append.mpr
          (Or.inr (List.mem_cons.mpr (Or.inr hm)))))
    rw [hadv, hshape]
    exact (key (b + 1)).trans (key b).symm
  · rw [hadv]
    simp
  · rw [hadv]
    simp

theorem advStr_no_dash (s : Str) (b : Nat) (hd : '-' ∉ s) : advStr s b = s := by
  unfold advStr
  exact replaceFirst_not_occurs s _ _ '-' (by simp) hd

/-- A parsable port id whose hub component has no dash is exactly its hub
component. -/
theorem eq_hubOf_of_no_dash (p : Str) (b : Nat) (hb : busOf p = some b)
    (hd : '-' ∉ hubOf p) : p = hubOf p := by
  by_cases hdot : '.' ∈ p
  · exfalso
    obtain ⟨t, hsplit, -⟩ := split_at_mem hdot
    have hsplit2 : p = hubOf p ++ '.' :: t := hsplit
    have hcomp : takeUntil '-' p = hubOf p ++ '.' :: takeUntil '-' t := by
      conv_lhs => rw [hsplit2]
      rw [takeUntil_append_of_not_mem _ hd]
      simp [takeUntil]
    have hdotmem : '.' ∈ takeUntil '-' p := by
      rw [hcomp]
      simp
    unfold busOf at hb
    rcases parsePyNat_chars _ _ hb '.' hdotmem with h | h
    · exact digit_ne_dot '.' h rfl
    · cases h
  · exact (takeUntil_of_not_mem hdot).symm

/-- Nonemptiness of any parsable string. -/
theorem ne_nil_of_busOf (s : Str) (b : Nat) (h : busOf s = some b) : s ≠ [] := by
  intro he
  subst he
  simp [busOf, takeUntil, parsePyNat, stripPlus] at h

/-! ### Relation-building lemmas -/

theorem lookupA_mem {α : Type} (m : List (Str × α)) (k : Str) (v : α)
    (h : lookupA m k = some v) : (k, v) ∈ m := by
  induction m with
  | nil => cases h
  | cons e t ih =>
    rcases e with ⟨k', v'⟩
    simp only [lookupA] at h
    by_cases h2 : k' = k
    · rw [if_pos h2] at h
      injection h with h
      subst h2; subst h
      exact List.mem_cons_self _ _
    · rw [if_neg h2] at h
      exact List.mem_cons_of_mem _ (ih h)

theorem lookupA_of_mem {α : Type} (m : List (Str × α)) (k : Str) (v : α)
    (hnd : (keysA m).Nodup) (h : (k, v) ∈ m) : lookupA m k = some v := by
  induction m with
  | nil => cases h
  | cons e t ih =>
    rcases e with ⟨k', v'⟩
    simp only [keysA, List.map_cons, List.nodup_cons] at hnd
    rcases List.mem_cons.mp h with he | ht
    · injection he with h1 h2
      simp only [lookupA]
      rw [if_pos h1.symm]
      exact congrArg some h2.symm
    · have hlk : lookupA t k = some v := ih hnd.2 ht
      have hk : k' ≠ k := by
        intro heq
        apply hnd.1
        rw [heq]
        exact mem_keysA_of_lookupA t k v hlk
      simp only [lookupA]
      rw [if_neg hk]
      exact hlk

theorem findKeyByValue_mem (rel : List (Str × Str)) (v k : Str)
    (h : findKeyByValue rel v = some k) : (k, v) ∈ rel := by
  induction rel with
  | nil => cases h
  | cons e t ih =>
    rcases e with ⟨k', v'⟩
    simp only [findKeyByValue] at h
    by_cases h2 : v' = v
    · rw [if_pos h2] at h
      injection h with h
      subst h2; subst h
      exact List.mem_cons_self _ _
    · rw [if_neg h2] at h
      exact List.mem_cons_of_mem _ (ih h)

theorem findKeyByValue_isSome_of_mem (rel : List (Str × Str)) (k v : Str)
    (h : (k, v) ∈ rel) : (findKeyByValue rel v).isSome = true := by
  induction rel with
  | nil => cases h
  | cons e t ih =>
    rcases e with ⟨k', v'⟩
    simp only [findKeyByValue]
    by_cases h2 : v' = v
    · simp [h2]
    · rw [if_neg h2]
      rcases List.mem_cons.mp h with he | ht
      · injection he with h1 h2'
        exact absurd h2'.symm h2
      · exact ih ht

theorem findKeyByValue_none_iff (rel : List (Str × Str)) (v : Str) :
    findKeyByValue rel v = none ↔ ∀ k, (k, v) ∉ rel := by
  constructor
  · intro h k hm
    have := findKeyByValue_isSome_of_mem rel k v hm
    rw [h] at this
    cases this
  · intro h
    cases hf : findKeyByValue rel v with
    | none => rfl
    | some k => exact absurd (findKeyByValue_mem rel v k hf) (h k)

/-- Unpacking a successful `hubRelationEntry`. -/
theorem hubRelationEntry_some (raw : Ports) (p : Str) (info : PortInfo)
    (k v : Str) (h : hubRelationEntry raw p info = some (k, v)) :
    k = p ∧ ∃ b, busOf p = some b ∧ b % 2 = 1 ∧ is_hub p raw = true ∧
      v = advStr p b ∧
      ∃ vinfo, lookupA raw v = some vinfo ∧
        vinfo.vendor_id = info.vendor_id ∧ vinfo.vendor_id ≠ none ∧
        is_hub v raw = true := by
  unfold hubRelationEntry at h
  cases hb : busOf p with
  | none =>
    simp only [hb] at h
    exact Option.noConfusion h
  | some b =>
    simp only [hb] at h
    by_cases hpar : b % 2 = 0
    · rw [if_pos hpar] at h; cases h
    · rw [if_neg hpar] at h
      by_cases hih : is_hub p raw = true
      · rw [if_neg (by simp [hih])] at h
        cases hq : lookupA raw (replaceFirst p (natRepr b ++ ['-'])
            (natRepr (b + 1) ++ ['-'])) with
        | none =>
          simp only [hq] at h
          exact Option.noConfusion h
        | some vinfo =>
          simp only [hq] at h
          split at h
          · rename_i hcond
            injection h with h
            injection h with h1 h2
            subst h1
            subst h2
            exact ⟨rfl, b, rfl, by omega, hih, rfl, vinfo, hq, hcond.1,
              hcond.2.1, hcond.2.2⟩
          · cases h
      · rw [if_pos (by simp [hih])] at h
        cases h

/-- Building a `hubRelationEntry` from its conditions. -/
theorem hubRelationEntry_intro (raw : Ports) (p : Str) (info : PortInfo)
    (b : Nat) (hb : busOf p = some b) (hodd : b % 2 = 1)
    (hhub : is_hub p raw = true) (vinfo : PortInfo)
    (hq : lookupA raw (advStr p b) = some vinfo)
    (hv : vinfo.vendor_id = info.vendor_id) (hvn : vinfo.vendor_id ≠ none)
    (hqh : is_hub (advStr p b) raw = true) :
    hubRelationEntry raw p info = some (p, advStr p b) := by
  unfold advStr at hq hqh ⊢
  unfold hubRelationEntry
  simp only [hb]
  rw [if_neg (by omega), if_neg (by simp [hhub])]
  simp only [hq]
  rw [if_pos ⟨hv, hvn, hqh⟩]

theorem mem_build_hub_relations (raw : Ports) (k v : Str) :
    (k, v) ∈ build_hub_relations raw ↔
      ∃ info, (k, info) ∈ raw ∧ hubRelationEntry raw k info = some (k, v) := by
  unfold build_hub_relations
  rw [List.mem_filterMap]
  constructor
  · rintro ⟨⟨p, info⟩, hmem, he⟩
    obtain ⟨hkp, -⟩ := hubRelationEntry_some raw p info k v he
    subst hkp
    exact ⟨info, hmem, he⟩
  · rintro ⟨info, hmem, he⟩
    exact ⟨(k, info), hmem, he⟩

theorem hubOf_isPre (p : Str) : hubOf p <+: p :=
  ⟨dropUntil '.' p, takeUntil_append_dropUntil '.' p⟩

theorem dot_not_mem_hubOf (p : Str) : '.' ∉ hubOf p := not_mem_takeUntil '.' p

theorem find_usb3_some_spec (p : Str) (rel : List (Str × Str)) (q : Str)
    (h : find_usb3_counterpart p rel = some q) :
    ∃ b, busOf p = some b ∧ ¬(b % 2 = 0) ∧
      ∃ u, lookupA rel (hubOf p) = some u ∧
        q = if '.' ∈ p then replaceFirst p (hubOf p) u else u := by
  unfold find_usb3_counterpart at h
  cases hb : busOf p with
  | none =>
    simp only [hb] at h
    exact Option.noConfusion h
  | some b =>
    simp only [hb] at h
    by_cases hpar : b % 2 = 0
    · rw [if_pos hpar] at h
      exact Option.noConfusion h
    · rw [if_neg hpar] at h
      cases hu : lookupA rel (hubOf p) with
      | none =>
        simp only [hu] at h
        exact Option.noConfusion h
      | some u =>
        simp only [hu] at h
        refine ⟨b, rfl, hpar, u, rfl, ?_⟩
        by_cases hdot : '.' ∈ p
        · rw [if_pos hdot] at h
          rw [if_pos hdot]
          exact (Option.some.inj h).symm
        · rw [if_neg hdot] at h
          rw [if_neg hdot]
          exact (Option.some.inj h).symm

theorem find_usb3_eq (p : Str) (rel : List (Str × Str)) (b : Nat) (u : Str)
    (hb : busOf p = some b) (hodd : ¬(b % 2 = 0))
    (hu : lookupA rel (hubOf p) = some u) :
    find_usb3_counterpart p rel =
      some (if '.' ∈ p then replaceFirst p (hubOf p) u else u) := by
  unfold find_usb3_counterpart
  simp only [hb]
  rw [if_neg hodd]
  simp only [hu]
  by_cases hdot : '.' ∈ p
  · rw [if_pos hdot, if_pos hdot]
  · rw [if_neg hdot, if_neg hdot]

theorem find_usb3_none_of_lookup_none (p : Str) (rel : List (Str × Str))
    (b : Nat) (hb : busOf p = some b) (hodd : ¬(b % 2 = 0))
    (hu : lookupA rel (hubOf p) = none) :
    find_usb3_counterpart p rel = none := by
  unfold find_usb3_counterpart
  simp only [hb]
  rw [if_neg hodd]
  simp only [hu]

theorem find_usb2_truthy_spec (p : Str) (rel : List (Str × Str))
    (h : pyTruthy (find_usb2_counterpart p rel) = true) :
    ∃ b, busOf p = some b ∧ b % 2 = 0 ∧
      ∃ k, findKeyByValue rel (hubOf p) = some k := by
  unfold find_usb2_counterpart at h
  cases hb : busOf p with
  | none =>
    simp only [hb] at h
    cases h
  | some b =>
    simp only [hb] at h
    by_cases hpar : b % 2 ≠ 0
    · rw [if_pos hpar] at h
      cases h
    · rw [if_neg hpar] at h
      cases hk : findKeyByValue rel (hubOf p) with
      | none =>
        simp only [hk] at h
        cases h
      | some k => exact ⟨b, rfl, by omega, k, rfl⟩

theorem find_usb2_truthy_intro (p : Str) (rel : List (Str × Str)) (b : Nat)
    (k : Str) (hb : busOf p = some b) (heven : b % 2 = 0)
    (hk : findKeyByValue rel (hubOf p) = some k) (hkne : k ≠ []) :
    pyTruthy (find_usb2_counterpart p rel) = true := by
  unfold find_usb2_counterpart
  simp only [hb]
  rw [if_neg (by omega)]
  simp only [hk]
  by_cases hdot : '.' ∈ p
  · rw [if_pos hdot]
    have : replaceFirst p (hubOf p) k = k ++ p.drop (hubOf p).length :=
      replaceFirst_of_isPrefix p (hubOf p) k (hubOf_isPre p)
    simp [pyTruthy, this, List.isEmpty_iff, hkne]
  · rw [if_neg hdot]
    simp [pyTruthy, List.isEmpty_iff, hkne]

theorem find_usb2_none_of_no_value (p : Str) (rel : List (Str × Str))
    (b : Nat) (hb : busOf p = some b) (heven : b % 2 = 0)
    (hk : findKeyByValue rel (hubOf p) = none) :
    find_usb2_counterpart p rel = none := by
  unfold find_usb2_counterpart
  simp only [hb]
  rw [if_neg (by omega)]
  simp only [hk]

/-! ### Pointwise characterization of `unify_ports` -/

theorem takeUntil_cons_self (c : Char) (t : Str) : takeUntil c (c :: t) = [] := by
  simp [takeUntil]

/-- Any key of the hub-relations map parses, so it is nonempty. -/
theorem rel_key_ne_nil (raw : Ports) (k v : Str)
    (h : (k, v) ∈ build_hub_relations raw) : k ≠ [] := by
  rw [mem_build_hub_relations] at h
  obtain ⟨info, -, he⟩ := h
  obtain ⟨-, b, hb, -⟩ := hubRelationEntry_some raw k info k v he
  exact ne_nil_of_busOf k b hb

/-- The merge target produced by `_find_usb3_counterpart` is an even-bus
port with a discoverable USB 2 counterpart — or the current port itself
(for a degenerate dashless self-relation). -/
theorem usb3_counterpart_even_or_self (raw : Ports) (p : Str) (q : Str)
    (b : Nat) (hb : busOf p = some b)
    (hq : find_usb3_counterpart p (build_hub_relations raw) = some q) :
    (∃ b', busOf q = some b' ∧ b' % 2 = 0 ∧
      pyTruthy (find_usb2_counterpart q (build_hub_relations raw)) = true) ∨
    q = p := by
  set rel := build_hub_relations raw with hrel
  obtain ⟨b0, hb0, hodd0, u, hu, hqv⟩ := find_usb3_some_spec p rel q hq
  rw [hb] at hb0
  injection hb0 with hb0
  subst hb0
  have hmemrel : (hubOf p, u) ∈ rel := lookupA_mem rel (hubOf p) u hu
  rw [hrel, mem_build_hub_relations] at hmemrel
  obtain ⟨info1, -, hentry⟩ := hmemrel
  obtain ⟨-, a, ha, haodd, -, huadv, -⟩ :=
    hubRelationEntry_some raw (hubOf p) info1 (hubOf p) u hentry
  by_cases hdash : '-' ∈ hubOf p
  · -- genuine bus advance: q is an even-bus port with a relation value as hub
    left
    obtain ⟨hbusu, hdotu, hdashu, hune⟩ := advStr_spec (hubOf p) a ha hdash
    rw [← huadv] at hbusu hdotu hdashu hune
    have hdotu' : '.' ∉ u := fun hc => (dot_not_mem_hubOf p) (hdotu.mp hc)
    -- the key found for value u is a nonempty relation key
    have hksome : (findKeyByValue rel u).isSome = true :=
      findKeyByValue_isSome_of_mem rel (hubOf p) u (lookupA_mem rel (hubOf p) u hu)
    obtain ⟨k0, hk0⟩ := Option.isSome_iff_exists.mp hksome
    have hk0ne : k0 ≠ [] :=
      rel_key_ne_nil raw k0 u (hrel ▸ findKeyByValue_mem rel u k0 hk0)
    by_cases hdot : '.' ∈ p
    · -- q = u ++ (the dotted tail of p)
      obtain ⟨t, hsplit, -⟩ := split_at_mem hdot
      have hsplit2 : p = hubOf p ++ '.' :: t := hsplit
      have hdrop : List.drop (hubOf p).length p = '.' :: t := by
        have hdl := List.drop_left (hubOf p) ('.' :: t)
        rw [← hsplit2] at hdl
        exact hdl
      have hqval : q = u ++ '.' :: t := by
        rw [hqv, if_pos hdot,
          replaceFirst_of_isPrefix p (hubOf p) u (hubOf_isPre p), hdrop]
      have hbusq : busOf q = some (a + 1) := by
        rw [hqval, busOf_append_of_dash _ _ hdashu, hbusu]
      have hhubq : hubOf q = u := by
        rw [hqval]
        unfold hubOf
        rw [takeUntil_append_of_not_mem _ hdotu', takeUntil_cons_self]
        simp
      refine ⟨a + 1, hbusq, by omega, ?_⟩
      exact find_usb2_truthy_intro q rel (a + 1) k0 hbusq (by omega)
        (by rw [hhubq]; exact hk0) hk0ne
    · -- no dot: q = u directly
      have hqval : q = u := by rw [hqv, if_neg hdot]
      have hbusq : busOf q = some (a + 1) := by rw [hqval]; exact hbusu
      have hhubq : hubOf q = u := by
        rw [hqval]
        exact takeUntil_of_not_mem hdotu'
      refine ⟨a + 1, hbusq, by omega, ?_⟩
      exact find_usb2_truthy_intro q rel (a + 1) k0 hbusq (by omega)
        (by rw [hhubq]; exact hk0) hk0ne
  · -- degenerate: the relation maps the dashless hub to itself
    right
    have hup : u = hubOf p := by rw [huadv]; exact advStr_no_dash (hubOf p) a hdash
    have hpeq : p = hubOf p := eq_hubOf_of_no_dash p b hb hdash
    have hnodot : '.' ∉ p := by
      rw [hpeq]
      exact dot_not_mem_hubOf p
    rw [hqv, if_neg hnodot, hup, ← hpeq]

/-- The `unify_ports` loop computes the pointwise map, as long as the
processed set only holds even absorbed ports or keys that cannot recur. -/
theorem unifyGo_eq_pointwise (raw : Ports) (rel : List (Str × Str))
    (hrel : rel = build_hub_relations raw) (l : Ports) :
    ∀ (unified : Ports) (processed : List Str),
      (keysA l).Nodup →
      (∀ s ∈ processed,
        (∃ b, busOf s = some b ∧ b % 2 = 0 ∧
          pyTruthy (find_usb2_counterpart s rel) = true) ∨ s ∉ keysA l) →
      unifyGo raw rel l unified processed = unified ++ unifyPt rel raw l := by
  induction l with
  | nil =>
    intro unified processed _ _
    simp [unifyGo, unifyPt]
  | cons e rest ih =>
    rcases e with ⟨p, info⟩
    intro unified processed hnd hinv
    have hnd' : (keysA rest).Nodup := by
      simp only [keysA, List.map_cons, List.nodup_cons] at hnd
      exact hnd.2
    have hpnotin : p ∉ keysA rest := by
      simp only [keysA, List.map_cons, List.nodup_cons] at hnd
      exact hnd.1
    have hinvW : ∀ s ∈ processed,
        (∃ b, busOf s = some b ∧ b % 2 = 0 ∧
          pyTruthy (find_usb2_counterpart s rel) = true) ∨ s ∉ keysA rest := by
      intro s hs
      rcases hinv s hs with h | h
      · exact Or.inl h
      · refine Or.inr (fun hks => h ?_)
        simp only [keysA, List.map_cons]
        exact List.mem_cons_of_mem _ hks
    simp only [unifyGo]
    cases hb : busOf p with
    | none =>
      simp only []
      have hent : unifyEntry rel raw p info = some info := by
        simp [unifyEntry, hb]
      rw [ih _ _ hnd' hinvW]
      simp [unifyPt, List.filterMap_cons, hent]
    | some b =>
      simp only []
      by_cases hcond : b % 2 = 0 ∧ pyTruthy (find_usb2_counterpart p rel) = true
      · rw [if_pos hcond]
        have hent : unifyEntry rel raw p info = none := by
          simp only [unifyEntry, hb]
          rw [if_pos hcond]
        rw [ih _ _ hnd' ?hinvP]
        case hinvP =>
          intro s hs
          rcases List.mem_append.mp hs with h | h
          · exact hinvW s h
          · simp only [List.mem_singleton] at h
            subst h
            exact Or.inl ⟨b, hb, hcond⟩
        simp [unifyPt, List.filterMap_cons, hent]
      · rw [if_neg hcond]
        have hpnp : p ∉ processed := by
          intro hp
          rcases hinv p hp with ⟨b', hb', hbe, hbt⟩ | hright
          · rw [hb] at hb'
            injection hb' with hb'
            subst hb'
            exact hcond ⟨hbe, hbt⟩
          · refine absurd ?_ hright
            simp only [keysA, List.map_cons]
            exact List.mem_cons_self _ _
        rw [if_neg hpnp]
        cases hq : find_usb3_counterpart p rel with
        | none =>
          simp only []
          have hent : unifyEntry rel raw p info = some info := by
            simp only [unifyEntry, hb]
            rw [if_neg hcond]
            simp only [hq]
          rw [ih _ _ hnd' hinvW]
          simp [unifyPt, List.filterMap_cons, hent]
        | some q =>
          simp only []
          by_cases hqe : q.isEmpty
          · rw [if_pos hqe]
            have hent : unifyEntry rel raw p info = some info := by
              simp only [unifyEntry, hb]
              rw [if_neg hcond]
              simp only [hq]
              rw [if_pos hqe]
            rw [ih _ _ hnd' hinvW]
            simp [unifyPt, List.filterMap_cons, hent]
          · rw [if_neg hqe]
            cases hql : lookupA raw q with
            | none =>
              simp only []
              have hent : unifyEntry rel raw p info = some info := by
                simp only [unifyEntry, hb]
                rw [if_neg hcond]
                simp only [hq]
                rw [if_neg hqe]
                simp only [hql]
              rw [ih _ _ hnd' hinvW]
              simp [unifyPt, List.filterMap_cons, hent]
            | some qinfo =>
              simp only []
              have hent : unifyEntry rel raw p info =
                  some (merge_port_info info qinfo) := by
                simp only [unifyEntry, hb]
                rw [if_neg hcond]
                simp only [hq]
                rw [if_neg hqe]
                simp only [hql]
              rw [ih _ _ hnd' ?hinvQ]
              case hinvQ =>
                intro s hs
                rcases List.mem_append.mp hs with h | h
                · exact hinvW s h
                · simp only [List.mem_singleton] at h
                  subst h
                  rcases usb3_counterpart_even_or_self raw p s b hb
                    (hrel ▸ hq) with hL | hR
                  · refine Or.inl ?_
                    rw [hrel]
                    exact hL
                  · subst hR
                    exact Or.inr hpnotin
              simp [unifyPt, List.filterMap_cons, hent]

/-! ### Lexicographic order and `sorted(set(...))` -/

theorem strLt_irrefl (s : Str) : strLt s s = false := by
  induction s with
  | nil => rfl
  | cons a t ih => simp [strLt, ih]

theorem strLt_asymm : ∀ (a b : Str), strLt a b = true → strLt b a = false
  | [], [] => fun h => by simp [strLt] at h
  | [], _ :: _ => fun _ => rfl
  | _ :: _, [] => fun h => by simp [strLt] at h
  | x :: xs, y :: ys => fun h => by
    simp only [strLt] at h ⊢
    by_cases h1 : x < y
    · rw [if_neg (asymm h1), if_pos h1]
    · rw [if_neg h1] at h
      by_cases h2 : y < x
      · rw [if_pos h2] at h
        exact absurd h (by simp)
      · rw [if_neg h2] at h
        rw [if_neg h2, if_neg h1]
        exact strLt_asymm xs ys h

theorem strLt_connex : ∀ (a b : Str), strLt a b = false → strLt b a = false →
    a = b
  | [], [] => fun _ _ => rfl
  | [], _ :: _ => fun h _ => by simp [strLt] at h
  | _ :: _, [] => fun _ h => by simp [strLt] at h
  | x :: xs, y :: ys => fun h h2 => by
    simp only [strLt] at h h2
    by_cases h1 : x < y
    · rw [if_pos h1] at h
      exact absurd h (by simp)
    · rw [if_neg h1] at h
      by_cases h3 : y < x
      · rw [if_pos h3] at h2
        exact absurd h2 (by simp)
      · rw [if_neg h3] at h
        rw [if_neg h3, if_neg h1] at h2
        have hxy : x = y := le_antisymm (not_lt.mp h3) (not_lt.mp h1)
        rw [hxy, strLt_connex xs ys h h2]

theorem strLt_trans : ∀ (a b c : Str), strLt a b = true → strLt b c = true →
    strLt a c = true
  | [], [], _ => fun h _ => by simp [strLt] at h
  | [], _ :: _, [] => fun _ h => by simp [strLt] at h
  | [], _ :: _, _ :: _ => fun _ _ => rfl
  | _ :: _, [], _ => fun h _ => by simp [strLt] at h
  | _ :: _, _ :: _, [] => fun _ h => by simp [strLt] at h
  | x :: xs, y :: ys, z :: zs => fun h h2 => by
    simp only [strLt] at h h2 ⊢
    by_cases h1 : x < y
    · by_cases h3 : y < z
      · rw [if_pos (lt_trans h1 h3)]
      · rw [if_neg h3] at h2
        by_cases h4 : z < y
        · rw [if_pos h4] at h2
          exact absurd h2 (by simp)
        · have hyz : y = z := le_antisymm (not_lt.mp h4) (not_lt.mp h3)
          rw [← hyz, if_pos h1]
    · rw [if_neg h1] at h
      by_cases h5 : y < x
      · rw [if_pos h5] at h
        exact absurd h (by simp)
      · rw [if_neg h5] at h
        have hxy : x = y := le_antisymm (not_lt.mp h5) (not_lt.mp h1)
        subst hxy
        by_cases h3 : x < z
        · rw [if_pos h3]
        · rw [if_neg h3] at h2 ⊢
          by_cases h4 : z < x
          · rw [if_pos h4] at h2
            exact absurd h2 (by simp)
          · rw [if_neg h4] at h2
            rw [if_neg h4]
            exact strLt_trans xs ys zs h h2

theorem mem_sortedInsert (x y : Str) (l : List Str) :
    y ∈ sortedInsert x l ↔ y = x ∨ y ∈ l := by
  induction l with
  | nil => simp [sortedInsert]
  | cons z zs ih =>
    simp only [sortedInsert]
    split_ifs with h1 h2
    · simp only [List.mem_cons]
    · subst h2
      simp only [List.mem_cons]
      tauto
    · simp only [List.mem_cons, ih]
      tauto

theorem sortedInsert_pairwise (x : Str) (l : List Str)
    (h : l.Pairwise (fun a b => strLt a b = true)) :
    (sortedInsert x l).Pairwise (fun a b => strLt a b = true) := by
  induction l with
  | nil => simp [sortedInsert]
  | cons z zs ih =>
    rw [List.pairwise_cons] at h
    simp only [sortedInsert]
    by_cases h1 : strLt x z = true
    · rw [if_pos h1]
      rw [List.pairwise_cons]
      refine ⟨?_, List.Pairwise.cons h.1 h.2⟩
      intro w hw
      rcases List.mem_cons.mp hw with hwz | hwzs
      · rw [hwz]; exact h1
      · exact strLt_trans x z w h1 (h.1 w hwzs)
    · rw [if_neg h1]
      by_cases h2 : x = z
      · rw [if_pos h2]
        exact List.Pairwise.cons h.1 h.2
      · rw [if_neg h2]
        rw [List.pairwise_cons]
        refine ⟨?_, ih h.2⟩
        intro w hw
        rcases (mem_sortedInsert x w zs).mp hw with hwx | hwzs
        · subst hwx
          cases h3 : strLt z w with
          | true => rfl
          | false =>
            exact absurd (strLt_connex _ _ (Bool.not_eq_true _ ▸ h1) h3) h2
        · exact h.1 w hwzs

theorem sortedDedup_pairwise (l : List Str) :
    (sortedDedup l).Pairwise (fun a b => strLt a b = true) := by
  induction l with
  | nil => simp [sortedDedup]
  | cons a t ih => exact sortedInsert_pairwise a (sortedDedup t) ih

theorem sortedInsert_of_mem (x : Str) (l : List Str) (hx : x ∈ l)
    (h : l.Pairwise (fun a b => strLt a b = true)) : sortedInsert x l = l := by
  induction l with
  | nil => cases hx
  | cons z zs ih =>
    rw [List.pairwise_cons] at h
    simp only [sortedInsert]
    rcases List.mem_cons.mp hx with hxz | hxzs
    · subst hxz
      rw [if_neg (by rw [strLt_irrefl]; simp), if_pos rfl]
    · have hzx : strLt z x = true := h.1 x hxzs
      rw [if_neg (by rw [strLt_asymm z x hzx]; simp),
        if_neg (by intro he; rw [he, strLt_irrefl] at hzx; cases hzx),
        ih hxzs h.2]

theorem sortedDedup_of_pairwise (l : List Str)
    (h : l.Pairwise (fun a b => strLt a b = true)) : sortedDedup l = l := by
  induction l with
  | nil => rfl
  | cons a t ih =>
    rw [List.pairwise_cons] at h
    have ht : sortedDedup (a :: t) = sortedInsert a (sortedDedup t) := rfl
    rw [ht, ih h.2]
    cases t with
    | nil => rfl
    | cons y ys =>
      simp only [sortedInsert]
      rw [if_pos (h.1 y (List.mem_cons_self _ _))]

theorem foldr_sortedInsert_id (l m : List Str)
    (hm : m.Pairwise (fun a b => strLt a b = true)) (hsub : ∀ x ∈ l, x ∈ m) :
    l.foldr sortedInsert m = m := by
  induction l with
  | nil => rfl
  | cons a t ih =>
    rw [List.foldr_cons, ih (fun x hx => hsub x (List.mem_cons_of_mem _ hx)),
      sortedInsert_of_mem a m (hsub a (List.mem_cons_self _ _)) hm]

theorem sortedDedup_append_self (l : List Str)
    (h : l.Pairwise (fun a b => strLt a b = true)) :
    sortedDedup (l ++ l) = l := by
  unfold sortedDedup
  rw [List.foldr_append]
  have h1 : List.foldr sortedInsert [] l = l := sortedDedup_of_pairwise l h
  rw [h1]
  exact foldr_sortedInsert_id l l h (fun x hx => hx)

theorem pyOrStr_self (a : Option Str) : pyOrStr a a = a := by
  cases a with
  | none => rfl
  | some s =>
    simp only [pyOrStr]
    split <;> rfl

theorem merge_port_info_merge_self (a b : PortInfo) :
    merge_port_info (merge_port_info a b) (merge_port_info a b) =
      merge_port_info a b := by
  unfold merge_port_info
  simp only [pyOrStr_self]
  rw [sortedDedup_append_self _ (sortedDedup_pairwise _)]

/-! ### Structure of the pointwise unification map -/

theorem keysA_unifyPt_sublist (rel : List (Str × Str)) (raw : Ports)
    (l : Ports) : List.Sublist (keysA (unifyPt rel raw l)) (keysA l) := by
  induction l with
  | nil => simp [unifyPt, keysA]
  | cons e t ih =>
    simp only [unifyPt] at ih ⊢
    simp only [List.filterMap_cons]
    cases he : unifyEntry rel raw e.1 e.2 with
    | none =>
      simp only [he, Option.map_none']
      exact List.Sublist.cons _ ih
    | some i =>
      simp only [he, Option.map_some']
      simp only [keysA, List.map_cons]
      exact List.Sublist.cons₂ _ ih

theorem keysA_hubRel_sublist (raw : Ports) (l : Ports) :
    List.Sublist (keysA (l.filterMap (fun e => hubRelationEntry raw e.1 e.2)))
      (keysA l) := by
  induction l with
  | nil => simp [keysA]
  | cons e t ih =>
    simp only [List.filterMap_cons]
    cases he : hubRelationEntry raw e.1 e.2 with
    | none =>
      simp only [he]
      exact List.Sublist.cons _ ih
    | some r =>
      simp only [he]
      rcases r with ⟨k, v⟩
      obtain ⟨hk, -⟩ := hubRelationEntry_some raw e.1 e.2 k v he
      simp only [keysA, List.map_cons]
      rw [hk]
      exact List.Sublist.cons₂ _ ih

theorem keysA_build_hub_relations_sublist (raw : Ports) :
    List.Sublist (keysA (build_hub_relations raw)) (keysA raw) :=
  keysA_hubRel_sublist raw raw

theorem mem_keysA_iff {α : Type} (m : List (Str × α)) (p : Str) :
    p ∈ keysA m ↔ ∃ v, (p, v) ∈ m := by
  unfold keysA
  rw [List.mem_map]
  constructor
  · rintro ⟨⟨k, v⟩, hm, rfl⟩
    exact ⟨v, hm⟩
  · rintro ⟨v, hv⟩
    exact ⟨(p, v), hv, rfl⟩

theorem is_hub_mono (p : Str) (U R : Ports) (hsub : List.Sublist (keysA U) (keysA R))
    (h : is_hub p U = true) : is_hub p R = true := by
  unfold is_hub at h ⊢
  rw [List.any_eq_true] at h ⊢
  obtain ⟨k, hk, hpre⟩ := h
  exact ⟨k, hsub.subset hk, hpre⟩

theorem mem_unifyPt (rel : List (Str × Str)) (raw l : Ports) (p : Str)
    (m : PortInfo) :
    (p, m) ∈ unifyPt rel raw l ↔
      ∃ info, (p, info) ∈ l ∧ unifyEntry rel raw p info = some m := by
  unfold unifyPt
  rw [List.mem_filterMap]
  constructor
  · rintro ⟨⟨k, i⟩, hm, he⟩
    rcases Option.map_eq_some'.mp he with ⟨j, hj, hji⟩
    injection hji with h1 h2
    subst h1
    subst h2
    exact ⟨i, hm, hj⟩
  · rintro ⟨info, hm, he⟩
    refine ⟨(p, info), hm, ?_⟩
    rw [he]
    rfl

theorem filterMap_id_of_forall {α : Type} (f : α → Option α) (l : List α)
    (h : ∀ e ∈ l, f e = some e) : l.filterMap f = l := by
  induction l with
  | nil => rfl
  | cons a t ih =>
    simp only [List.filterMap_cons, h a (List.mem_cons_self _ _)]
    rw [ih (fun e he => h e (List.mem_cons_of_mem _ he))]

/-! ### Branch lemmas for the per-entry unification step -/

theorem find_usb3_even_none (p : Str) (rel : List (Str × Str)) (b : Nat)
    (hb : busOf p = some b) (he : b % 2 = 0) :
    find_usb3_counterpart p rel = none := by
  unfold find_usb3_counterpart
  simp only [hb]
  rw [if_pos he]

theorem unifyEntry_none_bus (rel : List (Str × Str)) (raw : Ports) (p : Str)
    (info : PortInfo) (hb : busOf p = none) :
    unifyEntry rel raw p info = some info := by
  unfold unifyEntry
  simp only [hb]

theorem unifyEntry_even (rel : List (Str × Str)) (raw : Ports) (p : Str)
    (info m : PortInfo) (b : Nat) (hb : busOf p = some b) (he : b % 2 = 0)
    (h : unifyEntry rel raw p info = some m) :
    m = info ∧ pyTruthy (find_usb2_counterpart p rel) = false := by
  unfold unifyEntry at h
  simp only [hb] at h
  by_cases ht : pyTruthy (find_usb2_counterpart p rel) = true
  · rw [if_pos ⟨he, ht⟩] at h
    cases h
  · rw [if_neg (fun hc => ht hc.2)] at h
    simp only [find_usb3_even_none p rel b hb he] at h
    injection h with h
    exact ⟨h.symm, Bool.not_eq_true _ ▸ ht⟩

theorem unifyEntry_even_keep (rel : List (Str × Str)) (raw : Ports) (p : Str)
    (info : PortInfo) (b : Nat) (hb : busOf p = some b) (he : b % 2 = 0)
    (hf : pyTruthy (find_usb2_counterpart p rel) = false) :
    unifyEntry rel raw p info = some info := by
  unfold unifyEntry
  simp only [hb]
  rw [if_neg (fun hc => by simp [hf] at hc)]
  simp only [find_usb3_even_none p rel b hb he]

theorem unifyEntry_keep_of_usb3_none (rel : List (Str × Str)) (raw : Ports)
    (p : Str) (info : PortInfo) (b : Nat) (hb : busOf p = some b)
    (ho : ¬ b % 2 = 0) (h3 : find_usb3_counterpart p rel = none) :
    unifyEntry rel raw p info = some info := by
  unfold unifyEntry
  simp only [hb]
  rw [if_neg (fun hc => ho hc.1)]
  simp only [h3]

theorem unifyEntry_odd (rel : List (Str × Str)) (raw : Ports) (p : Str)
    (info m : PortInfo) (b : Nat) (hb : busOf p = some b) (ho : ¬ b % 2 = 0)
    (h : unifyEntry rel raw p info = some m) :
    m = info ∨ ∃ q qinfo, find_usb3_counterpart p rel = some q ∧
      q.isEmpty = false ∧ lookupA raw q = some qinfo ∧
      m = merge_port_info info qinfo := by
  unfold unifyEntry at h
  simp only [hb] at h
  rw [if_neg (fun hc => ho hc.1)] at h
  cases h3 : find_usb3_counterpart p rel with
  | none =>
    simp only [h3] at h
    injection h with h
    exact Or.inl h.symm
  | some q =>
    simp only [h3] at h
    by_cases hqe : q.isEmpty = true
    · rw [if_pos hqe] at h
      injection h with h
      exact Or.inl h.symm
    · rw [if_neg hqe] at h
      cases hql : lookupA raw q with
      | none =>
        simp only [hql] at h
        injection h with h
        exact Or.inl h.symm
      | some qi =>
        simp only [hql] at h
        injection h with h
        exact Or.inr ⟨q, qi, rfl, Bool.not_eq_true _ ▸ hqe, hql, h.symm⟩

theorem unifyEntry_merge_eq (rel : List (Str × Str)) (raw : Ports) (p : Str)
    (info : PortInfo) (b : Nat) (q : Str) (qinfo : PortInfo)
    (hb : busOf p = some b) (ho : ¬ b % 2 = 0)
    (h3 : find_usb3_counterpart p rel = some q) (hqe : q.isEmpty = false)
    (hql : lookupA raw q = some qinfo) :
    unifyEntry rel raw p info = some (merge_port_info info qinfo) := by
  unfold unifyEntry
  simp only [hb]
  rw [if_neg (fun hc => ho hc.1)]
  simp only [h3]
  rw [if_neg (by simp [hqe])]
  simp only [hql]

theorem busOf_hubOf (p : Str) (b : Nat) (h : busOf p = some b) :
    busOf (hubOf p) = some b := by
  by_cases hd : '-' ∈ p
  · obtain ⟨sgn, z, t, hz, hshape⟩ := shape_of_busOf_dash p b h hd
    have hhub : hubOf p = ((if sgn then ['+'] else []) ++ z) ++
        (natRepr b ++ '-' :: takeUntil '.' t) := by
      unfold hubOf
      rw [hshape, takeUntil_append_of_not_mem _ (dot_not_mem_pad sgn z hz),
        takeUntil_append_of_not_mem _ (dot_not_mem_natRepr b)]
      simp [takeUntil]
    rw [hhub]
    exact busOf_shape sgn z (takeUntil '.' t) b hz
  · have hp : takeUntil '-' p = p := takeUntil_of_not_mem hd
    have hpn : parsePyNat p = some b := by
      unfold busOf at h
      rwa [hp] at h
    have hdot : '.' ∉ p := by
      intro hc
      rcases parsePyNat_chars p b hpn '.' hc with h0 | h0
      · exact digit_ne_dot '.' h0 rfl
      · cases h0
    unfold hubOf
    rw [takeUntil_of_not_mem hdot]
    exact h

/-- Any relation entry computed over the once-unified map whose key holds a
dash and whose value holds no dot would already have been a relation entry
over the raw map — contradicting that its even-bus value port survived
unification with no USB 2 counterpart. -/
theorem rel2_no_new_value (raw : Ports) (hnd : (keysA raw).Nodup)
    (k v : Str) (hdash : '-' ∈ k) (hdot : '.' ∉ v)
    (hmem : (k, v) ∈ build_hub_relations
      (unifyPt (build_hub_relations raw) raw raw)) : False := by
  set rel := build_hub_relations raw with hrel
  set U1 := unifyPt rel raw raw with hU1
  have hsub : List.Sublist (keysA U1) (keysA raw) :=
    keysA_unifyPt_sublist rel raw raw
  rw [mem_build_hub_relations] at hmem
  obtain ⟨m, hmU, hentry⟩ := hmem
  obtain ⟨-, c, hc, hodd, hhubk, hv, u3m, hlu, hvend, hvnn, hhubv⟩ :=
    hubRelationEntry_some U1 k m k v hentry
  have hdotk : '.' ∉ k := by
    intro hde
    obtain ⟨-, hiff, -, -⟩ := advStr_spec k c hc hdash
    exact hdot (hv ▸ hiff.mpr hde)
  have hbusv : busOf v = some (c + 1) := by
    obtain ⟨hbv, -, -, -⟩ := advStr_spec k c hc hdash
    rw [hv]
    exact hbv
  have hvU : (v, u3m) ∈ U1 := lookupA_mem U1 v u3m hlu
  rw [hU1, mem_unifyPt] at hvU
  obtain ⟨iv, hivraw, hive⟩ := hvU
  have heven : (c + 1) % 2 = 0 := by omega
  obtain ⟨hmv, hfalsy⟩ := unifyEntry_even rel raw v iv u3m (c + 1) hbusv heven hive
  have hnone : findKeyByValue rel v = none := by
    cases hk0 : findKeyByValue rel v with
    | none => rfl
    | some k0 =>
      exfalso
      have hk0m : (k0, v) ∈ rel := findKeyByValue_mem rel v k0 hk0
      have hk0ne : k0 ≠ [] := rel_key_ne_nil raw k0 v (hrel ▸ hk0m)
      have hhubveq : hubOf v = v := takeUntil_of_not_mem hdot
      have htru := find_usb2_truthy_intro v rel (c + 1) k0 hbusv heven
        (by rw [hhubveq]; exact hk0) hk0ne
      rw [hfalsy] at htru
      cases htru
  rw [hU1, mem_unifyPt] at hmU
  obtain ⟨ik, hikraw, hike⟩ := hmU
  have hlookraw_v : lookupA raw v = some iv := lookupA_of_mem raw v iv hnd hivraw
  rcases unifyEntry_odd rel raw k ik m c hc (by omega) hike with hpass | hmerge
  · -- key passed through round one unchanged: raw already relates k to v
    have hintro := hubRelationEntry_intro raw k ik c hc hodd
      (is_hub_mono k U1 raw hsub hhubk) iv
      (by rw [← hv]; exact hlookraw_v)
      (by rw [← hmv, hvend, hpass])
      (by rw [← hmv]; exact hvnn)
      (by rw [← hv]; exact is_hub_mono v U1 raw hsub hhubv)
    have hmemrel : (k, v) ∈ rel := by
      rw [hrel, mem_build_hub_relations]
      refine ⟨ik, hikraw, ?_⟩
      rw [hintro, hv]
    have hsome := findKeyByValue_isSome_of_mem rel k v hmemrel
    rw [hnone] at hsome
    cases hsome
  · -- key was merged in round one: its dotless hub is a raw relation key
    obtain ⟨q, qi, hq3, hqe, hql, hm⟩ := hmerge
    obtain ⟨b0, hb0, hodd0, u, hu, hqv⟩ := find_usb3_some_spec k rel q hq3
    have hhubkeq : hubOf k = k := takeUntil_of_not_mem hdotk
    rw [hhubkeq] at hu
    have hmemrel0 : (k, u) ∈ rel := lookupA_mem rel k u hu
    have hmemrel0b := hmemrel0
    rw [hrel, mem_build_hub_relations] at hmemrel0b
    obtain ⟨i0, -, hent0⟩ := hmemrel0b
    obtain ⟨-, c0, hc0, -, -, hu0, -⟩ := hubRelationEntry_some raw k i0 k u hent0
    rw [hc] at hc0
    injection hc0 with hc0
    have huv : u = v := by
      rw [hu0, ← hc0, ← hv]
    rw [huv] at hmemrel0
    have hsome := findKeyByValue_isSome_of_mem rel k v hmemrel0
    rw [hnone] at hsome
    cases hsome

/-- Re-unifying an already-unified entry keeps it unchanged. -/
theorem unifyEntry_round2 (raw : Ports) (hnd : (keysA raw).Nodup)
    (p : Str) (m : PortInfo)
    (hmem : (p, m) ∈ unifyPt (build_hub_relations raw) raw raw) :
    unifyEntry
      (build_hub_relations (unifyPt (build_hub_relations raw) raw raw))
      (unifyPt (build_hub_relations raw) raw raw) p m = some m := by
  set rel := build_hub_relations raw with hrel
  set U1 := unifyPt rel raw raw with hU1
  set rel2 := build_hub_relations U1 with hrel2
  have hsub : List.Sublist (keysA U1) (keysA raw) :=
    keysA_unifyPt_sublist rel raw raw
  have hndU : (keysA U1).Nodup := hsub.nodup hnd
  cases hb : busOf p with
  | none => exact unifyEntry_none_bus rel2 U1 p m hb
  | some b =>
    by_cases hev : b % 2 = 0
    · -- even port: no round-two relation value can match its hub
      have hfalsy2 : pyTruthy (find_usb2_counterpart p rel2) = false := by
        cases hked : findKeyByValue rel2 (hubOf p) with
        | none =>
          rw [find_usb2_none_of_no_value p rel2 b hb hev hked]
          rfl
        | some k2 =>
          exfalso
          have hk2mem : (k2, hubOf p) ∈ rel2 :=
            findKeyByValue_mem rel2 (hubOf p) k2 hked
          by_cases hdash : '-' ∈ k2
          · exact rel2_no_new_value raw hnd k2 (hubOf p) hdash
              (dot_not_mem_hubOf p) hk2mem
          · have hk2mem2 := hk2mem
            rw [hrel2, mem_build_hub_relations] at hk2mem2
            obtain ⟨i2, -, hent2⟩ := hk2mem2
            obtain ⟨-, c2, hc2, hodd2, -, hv2, -⟩ :=
              hubRelationEntry_some U1 k2 i2 k2 (hubOf p) hent2
            have hk2eq : hubOf p = k2 := by
              rw [hv2, advStr_no_dash k2 c2 hdash]
            have hbh : busOf (hubOf p) = some b := busOf_hubOf p b hb
            rw [hk2eq, hc2] at hbh
            injection hbh with hbh
            omega
      exact unifyEntry_even_keep rel2 U1 p m b hb hev hfalsy2
    · -- odd port
      cases hlk2 : lookupA rel2 (hubOf p) with
      | none =>
        exact unifyEntry_keep_of_usb3_none rel2 U1 p m b hb hev
          (find_usb3_none_of_lookup_none p rel2 b hb hev hlk2)
      | some H3 =>
        have hHmem : (hubOf p, H3) ∈ rel2 := lookupA_mem rel2 (hubOf p) H3 hlk2
        by_cases hdashh : '-' ∈ hubOf p
        · exfalso
          have hHmem2 := hHmem
          rw [hrel2, mem_build_hub_relations] at hHmem2
          obtain ⟨i2, -, hent2⟩ := hHmem2
          obtain ⟨-, c2, hc2, -, -, hv2, -⟩ :=
            hubRelationEntry_some U1 (hubOf p) i2 (hubOf p) H3 hent2
          have hdotH : '.' ∉ H3 := by
            obtain ⟨-, hiff, -, -⟩ := advStr_spec (hubOf p) c2 hc2 hdashh
            rw [hv2]
            intro hcm
            exact dot_not_mem_hubOf p (hiff.mp hcm)
          exact rel2_no_new_value raw hnd (hubOf p) H3 hdashh hdotH hHmem
        · -- degenerate dashless self-hub
          have hpeq : p = hubOf p := eq_hubOf_of_no_dash p b hb hdashh
          have hhp : hubOf p = p := hpeq.symm
          have hdotp : '.' ∉ p := by
            rw [hpeq]
            exact dot_not_mem_hubOf p
          have hdashp : '-' ∉ p := by
            rw [hpeq]
            exact hdashh
          have hHmem2 := hHmem
          rw [hrel2, mem_build_hub_relations] at hHmem2
          obtain ⟨m2, hm2U, hent2⟩ := hHmem2
          obtain ⟨-, c2, hc2, -, hhub2, hv2, u3m2, hlu2, -, hvnn2, -⟩ :=
            hubRelationEntry_some U1 (hubOf p) m2 (hubOf p) H3 hent2
          rw [hhp] at hc2 hv2 hhub2
          rw [hb] at hc2
          injection hc2 with hc2
          subst hc2
          have hadvp : advStr p b = p := advStr_no_dash p b hdashp
          rw [hadvp] at hv2
          rw [hv2] at hlu2
          have hpne : p ≠ [] := ne_nil_of_busOf p b hb
          have hisE : p.isEmpty = false := by
            cases p with
            | nil => exact absurd rfl hpne
            | cons a t => rfl
          have hlum : lookupA U1 p = some m := lookupA_of_mem U1 p m hndU hmem
          rw [hlum] at hlu2
          injection hlu2 with hlu2
          have hvm : m.vendor_id ≠ none := by
            rw [hlu2]
            exact hvnn2
          have hf3 : find_usb3_counterpart p rel2 = some p := by
            rw [find_usb3_eq p rel2 b H3 hb hev hlk2, if_neg hdotp, hv2]
          rw [hU1, mem_unifyPt] at hmem
          obtain ⟨i, hiraw, hie⟩ := hmem
          have hlr : lookupA raw p = some i := lookupA_of_mem raw p i hnd hiraw
          cases hlk1 : lookupA rel p with
          | some u =>
            -- the raw relation already maps p to itself: m is a self-merge
            have humem : (p, u) ∈ rel := lookupA_mem rel p u hlk1
            have humem2 := humem
            rw [hrel, mem_build_hub_relations] at humem2
            obtain ⟨i0, -, hent0⟩ := humem2
            obtain ⟨-, c0, hc0, -, -, hu0, -⟩ :=
              hubRelationEntry_some raw p i0 p u hent0
            rw [hb] at hc0
            injection hc0 with hc0
            subst hc0
            have hup : u = p := by
              rw [hu0, advStr_no_dash p b hdashp]
            have hf31 : find_usb3_counterpart p rel = some p := by
              rw [find_usb3_eq p rel b u hb hev (by rw [hhp]; exact hlk1),
                if_neg hdotp, hup]
            have hie2 : unifyEntry rel raw p i = some (merge_port_info i i) :=
              unifyEntry_merge_eq rel raw p i b p i hb hev hf31 hisE hlr
            rw [hie] at hie2
            injection hie2 with hie2
            have hmm : merge_port_info m m = m := by
              rw [hie2]
              exact merge_port_info_merge_self i i
            rw [unifyEntry_merge_eq rel2 U1 p m b p m hb hev hf3 hisE hlum, hmm]
          | none =>
            -- impossible: the raw map would admit the self-relation for p
            have hf31 : find_usb3_counterpart p rel = none :=
              find_usb3_none_of_lookup_none p rel b hb hev
                (by rw [hhp]; exact hlk1)
            have hpass : m = i := by
              have hthis := unifyEntry_keep_of_usb3_none rel raw p i b hb hev hf31
              rw [hie] at hthis
              exact Option.some.inj hthis
            have hintro := hubRelationEntry_intro raw p i b hb (by omega)
              (is_hub_mono p U1 raw hsub hhub2) i
              (by rw [hadvp]; exact hlr)
              rfl
              (by rw [← hpass]; exact hvm)
              (by rw [hadvp]; exact is_hub_mono p U1 raw hsub hhub2)
            have hmemrel : (p, advStr p b) ∈ rel := by
              rw [hrel, mem_build_hub_relations]
              exact ⟨i, hiraw, hintro⟩
            have hlrel : lookupA rel p = some (advStr p b) :=
              lookupA_of_mem rel p (advStr p b)
                ((keysA_build_hub_relations_sublist raw).nodup hnd) hmemrel
            rw [hlk1] at hlrel
            exact Option.noConfusion hlrel

theorem unifyPt_id_of_forall (rel : List (Str × Str)) (raw l : Ports)
    (h : ∀ e ∈ l, unifyEntry rel raw e.1 e.2 = some e.2) :
    unifyPt rel raw l = l := by
  unfold unifyPt
  apply filterMap_id_of_forall
  intro e he
  rw [h e he]
  rfl

theorem unify_ports_eq_pointwise (raw : Ports) (hnd : (keysA raw).Nodup) :
    unify_ports raw = unifyPt (build_hub_relations raw) raw raw := by
  unfold unify_ports
  rw [unifyGo_eq_pointwise raw (build_hub_relations raw) rfl raw [] []
    hnd (fun s hs => absurd hs (List.not_mem_nil s))]
  rw [List.nil_append]

/-- C9: USB 2/3 unification is idempotent on any raw ports map with
duplicate-free keys — applying `unify_ports` to its own output returns the
output unchanged — and every raw entry for which neither a USB 2 nor a
USB 3 counterpart is discoverable (in particular every port id with no
parsable bus number, where both searches return `None`) appears in the
output with its info unchanged. -/
theorem unify_ports_idempotent_passthrough (raw : Ports)
    (hnd : (keysA raw).Nodup) :
    unify_ports (unify_ports raw) = unify_ports raw ∧
    ∀ p info, (p, info) ∈ raw →
      find_usb2_counterpart p (build_hub_relations raw) = none →
      find_usb3_counterpart p (build_hub_relations raw) = none →
      (p, info) ∈ unify_ports raw := by
  have h1 : unify_ports raw = unifyPt (build_hub_relations raw) raw raw :=
    unify_ports_eq_pointwise raw hnd
  have hndU : (keysA (unify_ports raw)).Nodup := by
    rw [h1]
    exact (keysA_unifyPt_sublist _ raw raw).nodup hnd
  constructor
  · rw [unify_ports_eq_pointwise (unify_ports raw) hndU, h1]
    apply unifyPt_id_of_forall
    intro e he
    exact unifyEntry_round2 raw hnd e.1 e.2 he
  · intro p info hm h2 h3
    rw [h1, mem_unifyPt]
    refine ⟨info, hm, ?_⟩
    cases hb : busOf p with
    | none => exact unifyEntry_none_bus _ raw p info hb
    | some b =>
      by_cases hev : b % 2 = 0
      · refine unifyEntry_even_keep _ raw p info b hb hev ?_
        rw [h2]
        rfl
      · exact unifyEntry_keep_of_usb3_none _ raw p info b hb hev h3

theorem unify_ports_idempotent_passthrough_witness :
    (keysA usbRawExample).Nodup ∧
    (unify_ports (unify_ports usbRawExample) = unify_ports usbRawExample ∧
     ∀ p info, (p, info) ∈ usbRawExample →
       find_usb2_counterpart p (build_hub_relations usbRawExample) = none →
       find_usb3_counterpart p (build_hub_relations usbRawExample) = none →
       (p, info) ∈ unify_ports usbRawExample) :=
  ⟨by decide, unify_ports_idempotent_passthrough usbRawExample (by decide)⟩

end TsFlash
